import Mathlib

/-!
# ClassBasics.cpp: line reader and word splitter

A shallow embedding of `src/basics/toy programs/ClassBasics.cpp`.

Conventions of the embedding.

* A C `char` is a `Char`; a block of memory is the `List Char` of its bytes
  from offset 0 on, and a pointer into a block is a `Nat` offset.  Reading at
  an offset past the end of the list reads the null marker, so every block
  holds a C string at every offset.
* A string that the program copies into a block it has just allocated for it
  (`sentence`, the elements of `word_list`) is kept as its text, the bytes
  before the null marker.
* The program is given twice.  The functions under the names of the source
  (`fget_string`, `setword_list`, `splice.new`, `main`) follow its statements
  with every store carried out where the program asks for it, also outside
  the block that `malloc` was asked for, and with `int` unbounded: they say
  which bytes the program stores at which offsets, and serve to locate the
  stores that leave their block.  The functions under `Checked` are the
  program as C++ defines it: a store outside its block, an `int` that
  overflows and a read through the null pointer end the run with a `Fault`,
  and a run has a value only when it meets none.  What is said of the values
  the program returns is said of the functions under `Checked`.
* An `int` has 32 bits, and `malloc` returns the block it is asked for.
-/

namespace ClassBasics

/-! ## Characters -/

/-- The null marker that ends a C string. -/
def NUL : Char := Char.ofNat 0

/-- The only delimiter handed to `strtok`, the space of `" "`. -/
def SP : Char := Char.ofNat 32

/-- The line terminator tested by `fget_string`. -/
def NL : Char := Char.ofNat 10

/-- The horizontal tab. -/
def TAB : Char := Char.ofNat 9

/-! ## The C library functions the program calls -/

/-- The text of the C string that starts at offset `p` of the block `mem`:
the bytes from `p` up to the first null marker. -/
def cstr (mem : List Char) (p : Nat) : List Char :=
  (mem.drop p).takeWhile (fun c => c != NUL)

/-- The length of the C string at offset `p`, as `std::strlen` computes it. -/
def strlen (mem : List Char) (p : Nat) : Nat :=
  (cstr mem p).length

/-- The byte at offset `p`, the null marker past the end of the block. -/
def peek (mem : List Char) (p : Nat) : Char :=
  mem.getD p NUL

/-- The number of leading bytes at offset `p` that are the delimiter `d`
(`strspn` with a one-character delimiter set). -/
def strspn (mem : List Char) (p : Nat) (d : Char) : Nat :=
  ((mem.drop p).takeWhile (fun c => c == d)).length

/-- The number of leading bytes at offset `p` that are neither the delimiter
`d` nor the null marker (`strcspn` with a one-character delimiter set). -/
def strcspn (mem : List Char) (p : Nat) (d : Char) : Nat :=
  ((mem.drop p).takeWhile (fun c => c != d && c != NUL)).length

/-- The state `strtok` works on: the block being tokenized and the saved
position from which the next call with a null argument resumes. -/
structure TokState where
  mem : List Char
  olds : Nat
deriving DecidableEq, Repr

/-- One call of `std::strtok(arg, " ")`: `arg` is `some p` for a first call
on the string at offset `p` and `none` for a call with `NULL`.  It skips the
delimiters, returns no token at the null marker, and otherwise overwrites the
delimiter that ends the token with the null marker and returns the offset of
the token. -/
def strtok (arg : Option Nat) (st : TokState) : Option Nat × TokState :=
  let s := arg.getD st.olds
  let tok := s + strspn st.mem s SP
  if peek st.mem tok = NUL then
    (none, { mem := st.mem, olds := tok })
  else
    let e := tok + strcspn st.mem tok SP
    if peek st.mem e = NUL then
      (some tok, { mem := st.mem, olds := e })
    else
      (some tok, { mem := st.mem.set e NUL, olds := e + 1 })

/-- The decimal digit character of `d`, for `d < 10`. -/
def digitChar (d : Nat) : Char := Char.ofNat (48 + d)

/-- The digits of `n`, most significant first, in front of `acc`; `fuel`
bounds the number of digits. -/
def to_string_aux : Nat → Nat → List Char → List Char
  | 0, _, acc => acc
  | fuel + 1, n, acc =>
    if n < 10 then digitChar n :: acc
    else to_string_aux fuel (n / 10) (digitChar (n % 10) :: acc)

/-- The decimal text of `n`, as `std::to_string` gives it for a count. -/
def to_string (n : Nat) : List Char :=
  to_string_aux (n + 1) n []

/-! ## class splice -/

/-- The value built by the constructor of `splice`.  `s` is the block the
constructor was given, as `setword_list` leaves it. -/
structure splice where
  len : Nat
  sentence : List Char
  word_list : List (List Char)
  s : List Char
deriving DecidableEq, Repr

/-- The loop of `splice::setword_list` (lines 37-44) with every store carried
out, entered with the result `split` of the previous call of `strtok`: each
token is copied to the end of the array, whatever the size of the block of
the array, and counted.  `fuel` bounds the number of iterations; the loop
gives nothing when it is used up.  `Checked.setword_list_loop` is the loop
with the stores checked. -/
def setword_list_loop :
    Nat → Option Nat → TokState → List (List Char) → Nat →
      Option (List (List Char) × Nat × TokState)
  | _, none, st, cArr, count => some (cArr, count, st)
  | 0, some _, _, _, _ => none
  | fuel + 1, some split, st, cArr, count =>
    let word := cstr st.mem split
    let next := strtok none st
    setword_list_loop fuel next.1 next.2 (cArr ++ [word]) (count + 1)

/-- The function `splice::setword_list(s)` with every store carried out: the
array starts with the element reserved for the count, the tokens of `s`
follow, and the decimal text of the count is copied into element 0 at the
end, whatever the sizes of the two blocks.  It gives the array and the block
`s` as tokenizing leaves it.  `Checked.setword_list` is the function with
the stores checked. -/
def setword_list (s : List Char) : Option (List (List Char) × List Char) :=
  let first := strtok (some 0) { mem := s, olds := 0 }
  match setword_list_loop (s.length + 1) first.1 first.2 [[]] 0 with
  | none => none
  | some (cArr, count, st) => some (cArr.set 0 (to_string count), st.mem)

/-- The constructor `splice(char *s)` with every store carried out: the
length and a copy of the line are taken first, then the line is tokenized in
place.  `Checked.splice_new` is the constructor with the stores checked. -/
def splice.new (s : List Char) : Option splice :=
  let len := strlen s 0
  let sentence := cstr s 0
  match setword_list s with
  | none => none
  | some (word_list, s') =>
    some { len := len, sentence := sentence, word_list := word_list, s := s' }

/-- The member `getsentence()`. -/
def splice.getsentence (x : splice) : List Char := x.sentence

/-! ## fget_string -/

/-- A stream: the bytes not read yet and the end-of-file indicator, which a
read sets when it finds no byte left. -/
structure FILE where
  data : List Char
  eof : Bool
deriving DecidableEq, Repr

/-- The test `feof(fp)`: the end-of-file indicator of the stream. -/
def feof (fp : FILE) : Bool := fp.eof

/-- The call `fgetc(fp)`: the next byte and the stream after it, or `EOF`
(no byte) with the indicator set. -/
def fgetc (fp : FILE) : Option Char × FILE :=
  match fp.data with
  | [] => (none, { data := [], eof := true })
  | c :: rest => (some c, { data := rest, eof := fp.eof })

/-- The store of `c` at offset `off` of a block. -/
def poke (mem : List Char) (off : Nat) (c : Char) : List Char :=
  mem.take off ++ c :: mem.drop (off + 1)

/-- The variables of `fget_string` inside its loop: the block `pp[initial]`,
the offset `p - pp[initial]` of the write cursor, the capacity `size`, and
the number of times the block has been replaced. -/
structure ReadState where
  pp : List Char
  p : Nat
  size : Nat
  grows : Nat
deriving DecidableEq, Repr

/-- The store `*p++ = c` of line 63. -/
def ReadState.put (st : ReadState) (c : Char) : ReadState :=
  { st with pp := poke st.pp st.p c, p := st.p + 1 }

/-- The body of the `if` of lines 65-71: the capacity is doubled, the bytes
before the cursor are copied to a new block, the cursor is moved to the same
offset of the new block and the new block replaces the old one.  The sum is
that of the natural numbers; `Checked.fget_loop` takes this step only when
the sum is an `int`. -/
def ReadState.grow (st : ReadState) : ReadState :=
  { pp := st.pp.take st.p, p := st.p, size := st.size + st.size,
    grows := st.grows + 1 }

/-- The loop of lines 63-73 with every store carried out, over the unread
bytes `data` of the stream, whose indicator is `eof`: it ends at the end of
the stream, or after storing a line terminator; after any other byte the
block grows when the cursor has reached the capacity.  `Checked.fget_loop`
is the loop with the stores checked. -/
def fget_loop : List Char → Bool → ReadState → ReadState × FILE
  | [], _, st => (st, { data := [], eof := true })
  | c :: rest, eof, st =>
    let st1 := st.put c
    if c = NL then (st1, { data := rest, eof := eof })
    else fget_loop rest eof (if st1.p ≥ st1.size then st1.grow else st1)

/-- What `fget_string` returns when it returns a buffer: the block `*pp`,
its capacity, the number of times it grew, and the stream as it is left. -/
structure LineBuf where
  mem : List Char
  size : Nat
  grows : Nat
  fp : FILE
deriving DecidableEq, Repr

/-- The function `fget_string(fp)` with every store carried out, the one of
the null marker (line 74) wherever the cursor is; `none` is the null
pointer, both for the stream `fp` and for the result.  `Checked.fget_string`
is the function with the stores checked. -/
def fget_string (fp : Option FILE) : Option LineBuf :=
  match fp with
  | none => none
  | some f =>
    if feof f then none
    else
      let r := fget_loop f.data f.eof { pp := [], p := 0, size := 128, grows := 0 }
      some { mem := poke r.1.pp r.1.p NUL, size := r.1.size,
             grows := r.1.grows, fp := r.2 }

/-! ## main -/

/-- The text `main` writes to standard output when it is run on the stream
`fp` (the result of `fopen`, or `stdin`), with every store carried out.  With
no buffer from `fget_string` the constructor of `splice` reads through a null
pointer and `main` has no defined output.  `Checked.main` is `main` with the
stores checked. -/
def main (fp : Option FILE) : Option (List Char) :=
  match fget_string fp with
  | none => none
  | some buf =>
    match splice.new buf.mem with
    | none => none
    | some bar =>
      some ("Input was ".toList ++ bar.getsentence ++ [NL]
        ++ ("Number of words is ".toList ++ bar.word_list.headD []))

/-! ## The words of the specification -/

/-- Specification: the value of a decimal text, `none` unless the text is a
non-empty sequence of decimal digits. -/
def decimalValue (t : List Char) : Option Nat :=
  if t ≠ [] ∧ t.all Char.isDigit = true then
    some (t.foldl (fun a c => 10 * a + (c.toNat - 48)) 0)
  else none

/-- Specification: the number of maximal runs of non-space characters of `t`
that start in `t`, where `inRun` tells whether the character in front of `t`
is a non-space character. -/
def countRunsFrom : Bool → List Char → Nat
  | _, [] => 0
  | inRun, c :: cs =>
    if c = SP then countRunsFrom false cs
    else (if inRun then 0 else 1) + countRunsFrom true cs

/-- Specification: the number `W` of maximal runs of non-space characters of
a line. -/
def countRuns (t : List Char) : Nat := countRunsFrom false t

/-- Specification: the maximal runs of non-space characters of `t` in order
of appearance, where `cur` is the part already seen of the run that `t`
continues. -/
def runsFrom : List Char → List Char → List (List Char)
  | cur, [] => if cur = [] then [] else [cur]
  | cur, c :: cs =>
    if c = SP then (if cur = [] then runsFrom [] cs else cur :: runsFrom [] cs)
    else runsFrom (cur ++ [c]) cs

/-- Specification: the maximal runs of non-space characters of a line, in
order of appearance. -/
def maximalRuns (t : List Char) : List (List Char) := runsFrom [] t

/-- Specification: `Runs t ws` says that `ws` lists the maximal runs of
non-space characters of `t` in order of appearance: `t` is some spaces,
then, if it has a run at all, its first run, which is not empty, holds no
space and ends at the end of `t` or at a space, behind which the other runs
are found in the same way. -/
inductive Runs : List Char → List (List Char) → Prop
  | done (k : Nat) : Runs (List.replicate k SP) []
  | last (k : Nat) (w : List Char) :
      w ≠ [] → (∀ c ∈ w, c ≠ SP) → Runs (List.replicate k SP ++ w) [w]
  | word (k : Nat) (w r : List Char) (ws : List (List Char)) :
      w ≠ [] → (∀ c ∈ w, c ≠ SP) → Runs r ws →
      Runs (List.replicate k SP ++ (w ++ SP :: r)) (w :: ws)

/-- Specification: the whitespace characters, space, tab and newline. -/
def isWhitespace (c : Char) : Bool := c == SP || c == TAB || c == NL

/-- Specification: a word neither begins nor ends with a whitespace
character. -/
def trimmed (w : List Char) : Bool :=
  w.head?.all (fun c => !isWhitespace c) && w.getLast?.all (fun c => !isWhitespace c)

/-! ## The blocks of setword_list -/

/-- The number of pointer slots of the block `cArr`: line 33 asks `malloc`
for `sizeof(char *)` bytes, the room of one pointer, and the block is never
replaced. -/
def cArr_slots : Nat := 1

/-- The size in bytes of the block of element 0 of the array, line 35. -/
def count_block_size : Nat := 4

/-- The loop of `splice::setword_list` followed for its stores into the
array alone: `move` is the index `move - cArr`, each iteration stores at
`move` (line 39) and then increments it (line 42); `log` lists the indices
stored at so far. -/
def setword_list_moves : Nat → Option Nat → TokState → Nat → List Nat → Option (List Nat)
  | _, none, _, _, log => some log
  | 0, some _, _, _, _ => none
  | fuel + 1, some _, st, move, log =>
    let next := strtok none st
    setword_list_moves fuel next.1 next.2 (move + 1) (log ++ [move])

/-- The indices of `cArr` at which `setword_list(s)` stores a pointer, in the
order of the stores: the store of line 35 is at index 0 and leaves `move` at
index 1, where the loop starts. -/
def setword_list_stores (s : List Char) : Option (List Nat) :=
  let first := strtok (some 0) { mem := s, olds := 0 }
  setword_list_moves (s.length + 1) first.1 first.2 1 [0]

/-- Specification: the line made of the words joined with single spaces. -/
def joinWords (ws : List (List Char)) : List Char := List.intercalate [SP] ws

/-! ## The program with every store checked against its block -/

/-- The ways in which a run of the program leaves what C++ defines. -/
inductive Fault where
  | null_pointer
  | store_outside (index capacity : Nat)
  | int_overflow
deriving DecidableEq, Repr

/-- The outcome of a run: a value, or the first fault of the run, after which
the program has no defined behaviour. -/
inductive Run (α : Type) where
  | ok (a : α)
  | undefined (f : Fault)
deriving DecidableEq, Repr

/-- The largest value of an `int` of 32 bits. -/
def INT_MAX : Nat := 2147483647

/-- The loop of lines 63-73 of `fget_string`, every store checked: the store
`*p++ = c` needs the cursor below the capacity, and `size += size` needs the
sum to be an `int`. -/
def Checked.fget_loop : List Char → Bool → ReadState → Run (ReadState × FILE)
  | [], _, st => Run.ok (st, { data := [], eof := true })
  | c :: rest, eof, st =>
    if st.size ≤ st.p then Run.undefined (Fault.store_outside st.p st.size)
    else
      let st1 := st.put c
      if c = NL then Run.ok (st1, { data := rest, eof := eof })
      else if st1.p ≥ st1.size then
        if INT_MAX < st1.size + st1.size then Run.undefined Fault.int_overflow
        else Checked.fget_loop rest eof st1.grow
      else Checked.fget_loop rest eof st1

/-- The function `fget_string(fp)`, every store checked: after the loop the
store `*p = 0` of line 74 needs the cursor below the capacity.  `Run.ok none`
is the return of the null pointer. -/
def Checked.fget_string (fp : Option FILE) : Run (Option LineBuf) :=
  match fp with
  | none => Run.ok none
  | some f =>
    if feof f then Run.ok none
    else
      match Checked.fget_loop f.data f.eof { pp := [], p := 0, size := 128, grows := 0 } with
      | Run.undefined e => Run.undefined e
      | Run.ok r =>
        if r.1.size ≤ r.1.p then Run.undefined (Fault.store_outside r.1.p r.1.size)
        else Run.ok (some { mem := poke r.1.pp r.1.p NUL, size := r.1.size,
                            grows := r.1.grows, fp := r.2 })

/-- The loop of `splice::setword_list` (lines 37-44), every store checked.
`free` is the number of slots of `cArr` from the index `move` on: with none
left the store `*move = ...` of line 39 is outside the block; `count++` needs
the sum to be an `int`. -/
def Checked.setword_list_loop :
    Nat → Option Nat → TokState → List (List Char) → Nat → Nat →
      Run (List (List Char) × Nat × TokState)
  | _, none, st, cArr, _, count => Run.ok (cArr, count, st)
  | 0, some _, _, _, move, _ => Run.undefined (Fault.store_outside move cArr_slots)
  | free + 1, some split, st, cArr, move, count =>
    let word := cstr st.mem split
    if INT_MAX < count + 1 then Run.undefined Fault.int_overflow
    else
      let next := strtok none st
      Checked.setword_list_loop free next.1 next.2 (cArr ++ [word]) (move + 1) (count + 1)

/-- The function `splice::setword_list(s)`, every store checked: the array has
`cArr_slots` slots, of which the store of line 35 takes the first, and the
copy of the text of the count with its null marker (line 46) needs
`count_block_size` bytes at most. -/
def Checked.setword_list (s : List Char) : Run (List (List Char) × List Char) :=
  let first := strtok (some 0) { mem := s, olds := 0 }
  match Checked.setword_list_loop (cArr_slots - 1) first.1 first.2 [[]] 1 0 with
  | Run.undefined e => Run.undefined e
  | Run.ok (cArr, count, st) =>
    if count_block_size < (to_string count).length + 1 then
      Run.undefined (Fault.store_outside count_block_size count_block_size)
    else Run.ok (cArr.set 0 (to_string count), st.mem)

/-- The constructor `splice(char *s)`, every store checked; `none` is the null
pointer, through which `strlen` of line 18 reads. -/
def Checked.splice_new (s : Option (List Char)) : Run splice :=
  match s with
  | none => Run.undefined Fault.null_pointer
  | some s =>
    let len := strlen s 0
    let sentence := cstr s 0
    match Checked.setword_list s with
    | Run.undefined e => Run.undefined e
    | Run.ok (word_list, s') =>
      Run.ok { len := len, sentence := sentence, word_list := word_list, s := s' }

/-- The text `main` writes to standard output, every store checked. -/
def Checked.main (fp : Option FILE) : Run (List Char) :=
  match Checked.fget_string fp with
  | Run.undefined e => Run.undefined e
  | Run.ok buf =>
    match Checked.splice_new (buf.map (fun b => b.mem)) with
    | Run.undefined e => Run.undefined e
    | Run.ok bar =>
      Run.ok ("Input was ".toList ++ bar.getsentence ++ [NL]
        ++ ("Number of words is ".toList ++ bar.word_list.headD []))

/-! ## Decimal texts -/

theorem digitChar_toNat (d : Nat) (h : d < 10) : (digitChar d).toNat = 48 + d := by
  interval_cases d <;> rfl

theorem digitChar_isDigit (d : Nat) (h : d < 10) : (digitChar d).isDigit = true := by
  interval_cases d <;> rfl

theorem to_string_aux_digits (fuel : Nat) :
    ∀ n acc, n < fuel →
      to_string_aux fuel n acc
        = (if n = 0 then [digitChar 0]
            else ((Nat.digits 10 n).reverse.map digitChar)) ++ acc := by
  induction fuel with
  | zero => intro n acc h; omega
  | succ fuel ih =>
    intro n acc h
    unfold to_string_aux
    by_cases h10 : n < 10
    · rw [if_pos h10]
      by_cases h0 : n = 0
      · simp [h0]
      · rw [if_neg h0, Nat.digits_of_lt 10 n h0 h10]; simp
    · rw [if_neg h10]
      have hpos : n ≠ 0 := by omega
      have hd : n / 10 ≠ 0 := by omega
      rw [ih (n / 10) _ (by omega), if_neg hd, if_neg hpos]
      conv_rhs => rw [Nat.digits_def' (by norm_num : 1 < 10) (by omega : 0 < n)]
      simp

theorem to_string_eq (n : Nat) :
    to_string n
      = if n = 0 then [digitChar 0] else (Nat.digits 10 n).reverse.map digitChar := by
  unfold to_string
  rw [to_string_aux_digits (n + 1) n [] (by omega)]
  simp

theorem foldl_digits (ds : List Nat) (h : ∀ d ∈ ds, d < 10) :
    (ds.reverse.map digitChar).foldl (fun a c => 10 * a + (c.toNat - 48)) 0
      = Nat.ofDigits 10 ds := by
  induction ds with
  | nil => simp
  | cons d ds ih =>
    have hd := digitChar_toNat d (h d (by simp))
    simp only [List.reverse_cons, List.map_append, List.map_cons, List.map_nil,
      List.foldl_append, List.foldl_cons, List.foldl_nil, Nat.ofDigits_cons]
    rw [ih (fun x hx => h x (by simp [hx])), hd]
    simp; omega

theorem decimalValue_to_string (n : Nat) : decimalValue (to_string n) = some n := by
  rw [to_string_eq]
  by_cases h0 : n = 0
  · subst h0; rfl
  · rw [if_neg h0]
    have hlt : ∀ d ∈ Nat.digits 10 n, d < 10 :=
      fun d hd => Nat.digits_lt_base (by norm_num) hd
    have hne : Nat.digits 10 n ≠ [] := by
      simpa [Nat.digits_eq_nil_iff_eq_zero] using h0
    unfold decimalValue
    rw [if_pos, foldl_digits _ hlt, Nat.ofDigits_digits]
    refine ⟨by simpa using hne, ?_⟩
    simp only [List.all_eq_true, List.mem_map, List.mem_reverse]
    rintro c ⟨d, hd, rfl⟩
    exact digitChar_isDigit d (hlt d hd)

/-! ## Maximal runs of non-space characters -/

theorem runsFrom_word (w : List Char) (hw : ∀ c ∈ w, c ≠ SP) :
    ∀ cur rest, runsFrom cur (w ++ rest) = runsFrom (cur ++ w) rest := by
  induction w with
  | nil => intro cur rest; simp
  | cons c w ih =>
    intro cur rest
    have hc : c ≠ SP := hw c (by simp)
    have := ih (fun x hx => hw x (by simp [hx])) (cur ++ [c]) rest
    simp [runsFrom, hc, this]

theorem runsFrom_spaces (k : Nat) (rest : List Char) :
    runsFrom [] (List.replicate k SP ++ rest) = runsFrom [] rest := by
  induction k with
  | zero => simp
  | succ k ih => simp [List.replicate_succ, runsFrom, ih]

theorem maximalRuns_spaces (k : Nat) : maximalRuns (List.replicate k SP) = [] := by
  have := runsFrom_spaces k []
  simpa [maximalRuns, runsFrom] using this

theorem maximalRuns_last (k : Nat) (w : List Char) (hw : ∀ c ∈ w, c ≠ SP) (hne : w ≠ []) :
    maximalRuns (List.replicate k SP ++ w) = [w] := by
  have h := runsFrom_word w hw [] []
  simp only [List.append_nil, List.nil_append] at h
  rw [maximalRuns, runsFrom_spaces, h]
  simp [runsFrom, hne]

theorem maximalRuns_step (k : Nat) (w r : List Char) (hw : ∀ c ∈ w, c ≠ SP)
    (hne : w ≠ []) :
    maximalRuns (List.replicate k SP ++ (w ++ SP :: r)) = w :: maximalRuns r := by
  have h := runsFrom_word w hw [] (SP :: r)
  simp only [List.nil_append] at h
  rw [maximalRuns, runsFrom_spaces, h]
  simp [runsFrom, hne, maximalRuns]

theorem length_runsFrom (t : List Char) :
    ∀ cur, (runsFrom cur t).length
      = (if cur = [] then 0 else 1) + countRunsFrom (!decide (cur = [])) t := by
  induction t with
  | nil => intro cur; by_cases h : cur = [] <;> simp [runsFrom, countRunsFrom, h]
  | cons c t ih =>
    intro cur
    by_cases hc : c = SP
    · by_cases h : cur = []
      · simp [runsFrom, countRunsFrom, hc, h, ih]
      · simp [runsFrom, countRunsFrom, hc, h, ih]; omega
    · by_cases h : cur = [] <;> simp [runsFrom, countRunsFrom, hc, h, ih]

theorem length_maximalRuns (t : List Char) : (maximalRuns t).length = countRuns t := by
  simp [maximalRuns, countRuns, length_runsFrom]

theorem runsFrom_sound (t : List Char) :
    ∀ cur, (∀ c ∈ cur, c ≠ SP) →
      ∀ w ∈ runsFrom cur t, w ≠ [] ∧ ∀ c ∈ w, c ≠ SP := by
  induction t with
  | nil =>
    intro cur hcur w hw
    by_cases h : cur = []
    · simp [runsFrom, h] at hw
    · simp only [runsFrom, if_neg h, List.mem_singleton] at hw
      subst hw; exact ⟨h, hcur⟩
  | cons c t ih =>
    intro cur hcur w hw
    by_cases hc : c = SP
    · by_cases h : cur = []
      · simp only [runsFrom, if_pos hc, if_pos h] at hw
        exact ih [] (by simp) w hw
      · simp only [runsFrom, if_pos hc, if_neg h, List.mem_cons] at hw
        rcases hw with rfl | hw
        · exact ⟨h, hcur⟩
        · exact ih [] (by simp) w hw
    · simp only [runsFrom, if_neg hc] at hw
      refine ih (cur ++ [c]) ?_ w hw
      intro x hx
      rcases List.mem_append.1 hx with hx | hx
      · exact hcur x hx
      · simp only [List.mem_singleton] at hx; subst hx; exact hc

theorem maximalRuns_sound (t : List Char) :
    ∀ w ∈ maximalRuns t, w ≠ [] ∧ ∀ c ∈ w, c ≠ SP :=
  runsFrom_sound t [] (by simp)

theorem line_shape (t : List Char) :
    ∃ k w x, t = List.replicate k SP ++ (w ++ x)
      ∧ (∀ c ∈ w, c ≠ SP)
      ∧ (x = [] ∨ (w ≠ [] ∧ ∃ r, x = SP :: r)) := by
  induction t with
  | nil => exact ⟨0, [], [], by simp, by simp, Or.inl rfl⟩
  | cons c t ih =>
    obtain ⟨k, w, x, ht, hw, hx⟩ := ih
    by_cases hc : c = SP
    · exact ⟨k + 1, w, x, by simp [ht, hc, List.replicate_succ], hw, hx⟩
    · cases k with
      | zero =>
        refine ⟨0, c :: w, x, by simp [ht], ?_, ?_⟩
        · intro d hd
          rcases List.mem_cons.1 hd with rfl | hd
          · exact hc
          · exact hw d hd
        · rcases hx with hx | ⟨_, hx⟩
          · exact Or.inl hx
          · exact Or.inr ⟨by simp, hx⟩
      | succ k =>
        refine ⟨0, [c], t, by simp, ?_, Or.inr ⟨by simp, ?_⟩⟩
        · intro d hd
          simp only [List.mem_singleton] at hd
          subst hd; exact hc
        · exact ⟨List.replicate k SP ++ (w ++ x), by simp [ht, List.replicate_succ]⟩

/-- The executable `maximalRuns` meets the declarative description `Runs`. -/
theorem maximalRuns_runs (n : Nat) : ∀ t : List Char, t.length ≤ n → Runs t (maximalRuns t) := by
  induction n with
  | zero =>
    intro t ht
    have : t = [] := List.length_eq_zero.1 (by omega)
    subst this
    exact Runs.done 0
  | succ n ih =>
    intro t ht
    obtain ⟨k, w, x, hshape, hw, hx⟩ := line_shape t
    by_cases hne : w = []
    · subst hne
      have hx' : x = [] := by
        rcases hx with h | ⟨h, _⟩
        · exact h
        · exact absurd rfl h
      subst hx'
      simp only [List.append_nil] at hshape
      rw [hshape, maximalRuns_spaces]
      exact Runs.done k
    · rcases hx with rfl | ⟨_, r, rfl⟩
      · simp only [List.append_nil] at hshape
        rw [hshape, maximalRuns_last k w hw hne]
        exact Runs.last k w hne hw
      · rw [hshape, maximalRuns_step k w r hw hne]
        refine Runs.word k w r _ hne hw (ih r ?_)
        simp [hshape] at ht
        omega
/-! ## strtok on a block of known shape -/

theorem SP_ne_NUL : SP ≠ NUL := by decide

theorem peek_append (pre u : List Char) : peek (pre ++ u) pre.length = u.headD NUL := by
  cases u with
  | nil => simp [peek, List.getD_eq_getElem?_getD]
  | cons c u =>
    have h : (pre ++ c :: u)[pre.length]? = some c := by
      rw [List.getElem?_append_right (Nat.le_refl _)]; simp
    simp [peek, List.getD_eq_getElem?_getD, h]

/-- Every block is some spaces, then a run of bytes that are neither spaces nor
null markers, then either its end, a null marker or (after a non-empty run) a
space. -/
theorem block_shape (u : List Char) :
    ∃ k w x, u = List.replicate k SP ++ (w ++ x)
      ∧ (∀ c ∈ w, c ≠ SP ∧ c ≠ NUL)
      ∧ (x = [] ∨ (∃ r, x = NUL :: r) ∨ (w ≠ [] ∧ ∃ r, x = SP :: r)) := by
  induction u with
  | nil => exact ⟨0, [], [], by simp, by simp, Or.inl rfl⟩
  | cons c u ih =>
    obtain ⟨k, w, x, hu, hw, hx⟩ := ih
    by_cases hc : c = SP
    · exact ⟨k + 1, w, x, by simp [hu, hc, List.replicate_succ], hw, hx⟩
    · by_cases hn : c = NUL
      · exact ⟨0, [], NUL :: u, by simp [hn], by simp, Or.inr (Or.inl ⟨u, rfl⟩)⟩
      · cases k with
        | zero =>
          refine ⟨0, c :: w, x, by simp [hu], ?_, ?_⟩
          · intro d hd
            rcases List.mem_cons.1 hd with rfl | hd
            · exact ⟨hc, hn⟩
            · exact hw d hd
          · rcases hx with hx | hx | ⟨_, hx⟩
            · exact Or.inl hx
            · exact Or.inr (Or.inl hx)
            · exact Or.inr (Or.inr ⟨by simp, hx⟩)
        | succ k =>
          refine ⟨0, [c], u, by simp, ?_, Or.inr (Or.inr ⟨by simp, ?_⟩)⟩
          · intro d hd
            simp only [List.mem_singleton] at hd
            subst hd; exact ⟨hc, hn⟩
          · exact ⟨List.replicate k SP ++ (w ++ x), by simp [hu, List.replicate_succ]⟩

theorem takeWhile_stop (p : Char → Bool) (a b : List Char) (ha : ∀ c ∈ a, p c = true)
    (hb : b.takeWhile p = []) : (a ++ b).takeWhile p = a := by
  rw [List.takeWhile_append_of_pos ha, hb, List.append_nil]

theorem strspn_shape (pre : List Char) (k : Nat) (v : List Char)
    (hv : v.takeWhile (fun c => c == SP) = []) :
    strspn (pre ++ (List.replicate k SP ++ v)) pre.length SP = k := by
  unfold strspn
  rw [List.drop_left, takeWhile_stop _ _ _ _ hv]
  · simp
  · intro c hc
    simp [List.eq_of_mem_replicate hc]

theorem strcspn_shape (pre w x : List Char) (hw : ∀ c ∈ w, c ≠ SP ∧ c ≠ NUL)
    (hx : x.takeWhile (fun c => c != SP && c != NUL) = []) :
    strcspn (pre ++ (w ++ x)) pre.length SP = w.length := by
  unfold strcspn
  rw [List.drop_left, takeWhile_stop _ _ _ _ hx]
  intro c hc
  simp [hw c hc]

theorem cstr_shape (pre w x : List Char) (hw : ∀ c ∈ w, c ≠ NUL)
    (hx : x = [] ∨ ∃ r, x = NUL :: r) :
    cstr (pre ++ (w ++ x)) pre.length = w := by
  unfold cstr
  rw [List.drop_left, takeWhile_stop]
  · intro c hc; simp [hw c hc]
  · rcases hx with rfl | ⟨r, rfl⟩ <;> simp

/-- A call of `strtok` at a position followed only by spaces up to the end of
the string returns no token and leaves the block as it is. -/
theorem strtok_none (arg : Option Nat) (st : TokState) (pre : List Char) (k : Nat)
    (x : List Char) (hm : st.mem = pre ++ (List.replicate k SP ++ x))
    (hs : arg.getD st.olds = pre.length) (hx : x = [] ∨ ∃ r, x = NUL :: r) :
    strtok arg st = (none, { mem := st.mem, olds := pre.length + k }) := by
  have hv : x.takeWhile (fun c => c == SP) = [] := by
    rcases hx with rfl | ⟨r, rfl⟩
    · simp
    · simp [List.takeWhile_cons, Ne.symm SP_ne_NUL]
  have hspn : strspn st.mem pre.length SP = k := by rw [hm]; exact strspn_shape pre k x hv
  have hpk : peek st.mem (pre.length + k) = NUL := by
    have := peek_append (pre ++ List.replicate k SP) x
    rw [hm]
    simp only [List.length_append, List.length_replicate, List.append_assoc] at this
    rw [this]
    rcases hx with rfl | ⟨r, rfl⟩ <;> simp
  simp [strtok, hs, hspn, hpk]

theorem head_word (w x : List Char) (hw : ∀ c ∈ w, c ≠ SP ∧ c ≠ NUL) (hne : w ≠ []) :
    (w ++ x).takeWhile (fun c => c == SP) = [] ∧ (w ++ x).headD NUL ≠ NUL := by
  cases w with
  | nil => exact absurd rfl hne
  | cons c w =>
    have := hw c (by simp)
    simp [List.takeWhile_cons, this.1, this.2]

/-- A call of `strtok` that finds a word ended by the end of the string returns
the word and leaves the block as it is. -/
theorem strtok_last (arg : Option Nat) (st : TokState) (pre : List Char) (k : Nat)
    (w x : List Char) (hm : st.mem = pre ++ (List.replicate k SP ++ (w ++ x)))
    (hs : arg.getD st.olds = pre.length) (hw : ∀ c ∈ w, c ≠ SP ∧ c ≠ NUL) (hne : w ≠ [])
    (hx : x = [] ∨ ∃ r, x = NUL :: r) :
    strtok arg st
      = (some (pre.length + k), { mem := st.mem, olds := pre.length + k + w.length }) := by
  have hh := head_word w x hw hne
  have hspn : strspn st.mem pre.length SP = k := by
    rw [hm]; exact strspn_shape pre k (w ++ x) hh.1
  have hm2 : st.mem = (pre ++ List.replicate k SP) ++ (w ++ x) := by simp [hm]
  have hl : (pre ++ List.replicate k SP).length = pre.length + k := by simp
  have hpk : peek st.mem (pre.length + k) ≠ NUL := by
    rw [hm2, ← hl, peek_append]; exact hh.2
  have hxs : x.takeWhile (fun c => c != SP && c != NUL) = [] := by
    rcases hx with rfl | ⟨r, rfl⟩ <;> simp [List.takeWhile_cons]
  have hcspn : strcspn st.mem (pre.length + k) SP = w.length := by
    rw [hm2, ← hl]; exact strcspn_shape _ w x hw hxs
  have hm3 : st.mem = (pre ++ List.replicate k SP ++ w) ++ x := by simp [hm]
  have hl3 : (pre ++ List.replicate k SP ++ w).length = pre.length + k + w.length := by
    simp [Nat.add_assoc]
  have hpk2 : peek st.mem (pre.length + k + w.length) = NUL := by
    rw [hm3, ← hl3, peek_append]
    rcases hx with rfl | ⟨r, rfl⟩ <;> simp
  simp [strtok, hs, hspn, hpk, hcspn, hpk2]

/-- A call of `strtok` that finds a word ended by a space returns the word,
overwrites that space with the null marker and resumes behind it. -/
theorem strtok_step (arg : Option Nat) (st : TokState) (pre : List Char) (k : Nat)
    (w r : List Char) (hm : st.mem = pre ++ (List.replicate k SP ++ (w ++ SP :: r)))
    (hs : arg.getD st.olds = pre.length) (hw : ∀ c ∈ w, c ≠ SP ∧ c ≠ NUL) (hne : w ≠ []) :
    strtok arg st
      = (some (pre.length + k),
          { mem := pre ++ (List.replicate k SP ++ (w ++ NUL :: r)),
            olds := pre.length + k + w.length + 1 }) := by
  have hh := head_word w (SP :: r) hw hne
  have hspn : strspn st.mem pre.length SP = k := by
    rw [hm]; exact strspn_shape pre k _ hh.1
  have hm2 : st.mem = (pre ++ List.replicate k SP) ++ (w ++ SP :: r) := by simp [hm]
  have hl : (pre ++ List.replicate k SP).length = pre.length + k := by simp
  have hpk : peek st.mem (pre.length + k) ≠ NUL := by
    rw [hm2, ← hl, peek_append]; exact hh.2
  have hxs : (SP :: r).takeWhile (fun c => c != SP && c != NUL) = [] := by
    simp [List.takeWhile_cons]
  have hcspn : strcspn st.mem (pre.length + k) SP = w.length := by
    rw [hm2, ← hl]; exact strcspn_shape _ w _ hw hxs
  have hm3 : st.mem = (pre ++ List.replicate k SP ++ w) ++ SP :: r := by simp [hm]
  have hl3 : (pre ++ List.replicate k SP ++ w).length = pre.length + k + w.length := by
    simp [Nat.add_assoc]
  have hpk2 : peek st.mem (pre.length + k + w.length) ≠ NUL := by
    rw [hm3, ← hl3, peek_append]; exact SP_ne_NUL
  have hset : st.mem.set (pre.length + k + w.length) NUL
      = pre ++ (List.replicate k SP ++ (w ++ NUL :: r)) := by
    rw [hm3, ← hl3, List.set_append_right _ _ (Nat.le_refl _)]
    simp
  simp [strtok, hs, hspn, hpk, hcspn, hpk2, hset]

/-! ## The loop of setword_list -/

/-- Entered with the result of a call of `strtok` at the start of the rest `u`
of the block, the loop of `setword_list` ends within `u.length + 1` iterations
and appends the maximal runs of non-space characters of the string at `u`. -/
theorem setword_list_loop_spec (fuel : Nat) :
    ∀ (arg : Option Nat) (st : TokState) (pre u : List Char) (cArr : List (List Char))
      (count : Nat),
      st.mem = pre ++ u → arg.getD st.olds = pre.length → u.length < fuel →
      ∃ st', setword_list_loop fuel (strtok arg st).1 (strtok arg st).2 cArr count
        = some (cArr ++ maximalRuns (u.takeWhile (fun c => c != NUL)),
            count + (maximalRuns (u.takeWhile (fun c => c != NUL))).length, st') := by
  induction fuel with
  | zero => intro arg st pre u cArr count _ _ h; omega
  | succ fuel ih =>
    intro arg st pre u cArr count hm hs hlen
    obtain ⟨k, w, x, hu, hw, hx⟩ := block_shape u
    have hwsp : ∀ c ∈ w, c ≠ SP := fun c hc => (hw c hc).1
    have hwnul : ∀ c ∈ List.replicate k SP ++ w, (c != NUL) = true := by
      intro c hc
      rcases List.mem_append.1 hc with hc | hc
      · simp [List.eq_of_mem_replicate hc, SP_ne_NUL]
      · simp [(hw c hc).2]
    by_cases hne : w = []
    · -- only spaces remain: the loop is over
      subst hne
      have hx' : x = [] ∨ ∃ r, x = NUL :: r := by
        rcases hx with h | h | ⟨h, _⟩
        · exact Or.inl h
        · exact Or.inr h
        · exact absurd rfl h
      have ht : u.takeWhile (fun c => c != NUL) = List.replicate k SP := by
        rw [hu]
        simp only [List.nil_append]
        apply takeWhile_stop
        · intro c hc; simp [List.eq_of_mem_replicate hc, SP_ne_NUL]
        · rcases hx' with rfl | ⟨r, rfl⟩ <;> simp
      rw [strtok_none arg st pre k x (by simpa [hu] using hm) hs hx', ht,
        maximalRuns_spaces]
      exact ⟨{ mem := st.mem, olds := pre.length + k }, by simp [setword_list_loop]⟩
    · have hl : (pre ++ List.replicate k SP).length = pre.length + k := by simp
      by_cases hx' : x = [] ∨ ∃ r, x = NUL :: r
      · -- the last word: the next call of strtok finds the end of the string
        have hm1 : st.mem = pre ++ (List.replicate k SP ++ (w ++ x)) := by
          simpa [hu] using hm
        have hm2 : st.mem = (pre ++ List.replicate k SP) ++ (w ++ x) := by simp [hm1]
        have hm3 : st.mem
            = (pre ++ List.replicate k SP ++ w) ++ (List.replicate 0 SP ++ x) := by
          simp [hm1]
        have hl3 : (pre ++ List.replicate k SP ++ w).length
            = pre.length + k + w.length := by simp [Nat.add_assoc]
        have hword : cstr st.mem (pre.length + k) = w := by
          rw [hm2, ← hl]
          exact cstr_shape _ w x (fun c hc => (hw c hc).2) hx'
        have hnext := strtok_none none
          { mem := st.mem, olds := pre.length + k + w.length }
          (pre ++ List.replicate k SP ++ w) 0 x hm3 (by simp [Nat.add_assoc]) hx'
        have ht : u.takeWhile (fun c => c != NUL) = List.replicate k SP ++ w := by
          rw [hu, ← List.append_assoc]
          apply takeWhile_stop _ _ _ hwnul
          rcases hx' with rfl | ⟨r, rfl⟩ <;> simp
        rw [strtok_last arg st pre k w x hm1 hs hw hne hx', ht,
          maximalRuns_last k w hwsp hne]
        simp only [setword_list_loop, hnext, hword]
        exact ⟨_, rfl⟩
      · -- a word ended by a space: the loop goes on behind it
        obtain ⟨r, rfl⟩ : ∃ r, x = SP :: r := by
          rcases hx with h | h | ⟨_, h⟩
          · exact absurd (Or.inl h) hx'
          · exact absurd (Or.inr h) hx'
          · exact h
        have hm1 : st.mem = pre ++ (List.replicate k SP ++ (w ++ SP :: r)) := by
          simpa [hu] using hm
        have hword : cstr (pre ++ (List.replicate k SP ++ (w ++ NUL :: r)))
            (pre.length + k) = w := by
          have := cstr_shape (pre ++ List.replicate k SP) w (NUL :: r)
            (fun c hc => (hw c hc).2) (Or.inr ⟨r, rfl⟩)
          simpa [hl] using this
        have ht : u.takeWhile (fun c => c != NUL)
            = List.replicate k SP ++ (w ++ SP :: r.takeWhile (fun c => c != NUL)) := by
          rw [hu, ← List.append_assoc, List.takeWhile_append_of_pos hwnul]
          simp [List.takeWhile_cons, SP_ne_NUL]
        obtain ⟨st', hst'⟩ := ih none
          { mem := pre ++ (List.replicate k SP ++ (w ++ NUL :: r)),
            olds := pre.length + k + w.length + 1 }
          (pre ++ List.replicate k SP ++ w ++ [NUL]) r (cArr ++ [w]) (count + 1)
          (by simp) (by simp [Nat.add_assoc])
          (by simp [hu] at hlen; omega)
        rw [strtok_step arg st pre k w r hm1 hs hw hne, ht,
          maximalRuns_step k w _ hwsp hne]
        simp only [setword_list_loop, hword]
        refine ⟨st', ?_⟩
        rw [hst']
        simp [Nat.add_assoc, Nat.add_comm]

/-! ## setword_list and the constructor -/

theorem setword_list_spec (s : List Char) :
    ∃ s', setword_list s
      = some (to_string (countRuns (cstr s 0)) :: maximalRuns (cstr s 0), s') := by
  obtain ⟨st', h⟩ := setword_list_loop_spec (s.length + 1) (some 0)
    { mem := s, olds := 0 } [] s [[]] 0 (by simp) (by simp) (by omega)
  refine ⟨st'.mem, ?_⟩
  unfold setword_list
  simp only [h]
  simp [cstr, length_maximalRuns]

theorem splice_new_spec (s : List Char) :
    ∃ s', splice.new s
      = some { len := (cstr s 0).length, sentence := cstr s 0,
               word_list := to_string (countRuns (cstr s 0)) :: maximalRuns (cstr s 0),
               s := s' } := by
  obtain ⟨s', h⟩ := setword_list_spec s
  exact ⟨s', by simp [splice.new, h, strlen]⟩

/-! ## The loop of fget_string -/

theorem poke_end (mem : List Char) (c : Char) : poke mem mem.length c = mem ++ [c] := by
  simp [poke]

theorem put_spec (st : ReadState) (c : Char) (h : st.pp.length = st.p) :
    (st.put c).pp = st.pp ++ [c] ∧ (st.put c).p = st.p + 1
      ∧ (st.put c).size = st.size ∧ (st.put c).grows = st.grows := by
  simp [ReadState.put, ← h, poke_end]

theorem grow_spec (st : ReadState) (h : st.pp.length = st.p) :
    st.grow.pp = st.pp ∧ st.grow.p = st.p := by
  simp [ReadState.grow, ← h]

/-- Over a stream that holds `L`, free of line terminators, and then `term`,
which is empty or starts with a line terminator, the loop stores `L` and the
terminator, if there is one, behind what the block holds, and leaves the rest
of the stream unread. -/
theorem fget_loop_spec (L : List Char) (hL : ∀ c ∈ L, c ≠ NL) (term : List Char)
    (hterm : term = [] ∨ ∃ rest, term = NL :: rest) (eof : Bool) :
    ∀ st : ReadState, st.pp.length = st.p →
      (fget_loop (L ++ term) eof st).1.pp = st.pp ++ (L ++ term.take 1)
      ∧ (fget_loop (L ++ term) eof st).1.p = st.p + (L ++ term.take 1).length
      ∧ (fget_loop (L ++ term) eof st).2
          = (if term = [] then { data := [], eof := true }
             else { data := term.drop 1, eof := eof }) := by
  induction L with
  | nil =>
    intro st h
    rcases hterm with rfl | ⟨rest, rfl⟩
    · simp [fget_loop]
    · have hp := put_spec st NL h
      simp [fget_loop, hp.1, hp.2.1]
  | cons c L ih =>
    intro st h
    have hc : c ≠ NL := hL c (by simp)
    have hp := put_spec st c h
    have hlen : (st.put c).pp.length = (st.put c).p := by simp [hp.1, hp.2.1, h]
    have hg := grow_spec (st.put c) hlen
    have key : ∀ st2 : ReadState, st2.pp = st.pp ++ [c] → st2.p = st.p + 1 →
        (fget_loop (L ++ term) eof st2).1.pp = st.pp ++ (c :: L ++ term.take 1)
        ∧ (fget_loop (L ++ term) eof st2).1.p = st.p + (c :: L ++ term.take 1).length
        ∧ (fget_loop (L ++ term) eof st2).2
            = (if term = [] then { data := [], eof := true }
               else { data := term.drop 1, eof := eof }) := by
      intro st2 h1 h2
      have := ih (fun x hx => hL x (by simp [hx])) st2 (by simp [h1, h2, h])
      refine ⟨by simp [this.1, h1], ?_, this.2.2⟩
      rw [this.2.1, h2]; simp; omega
    simp only [List.cons_append, fget_loop, if_neg hc]
    split
    · exact key _ (by rw [hg.1, hp.1]) (by rw [hg.2, hp.2.1])
    · exact key _ hp.1 hp.2.1

theorem fget_loop_grows_mono (data : List Char) (eof : Bool) :
    ∀ st : ReadState, st.grows ≤ (fget_loop data eof st).1.grows := by
  induction data with
  | nil => intro st; simp [fget_loop]
  | cons c data ih =>
    intro st
    simp only [fget_loop]
    split
    · simp [ReadState.put]
    · split
      · exact Nat.le_trans (by simp [ReadState.put, ReadState.grow]) (ih _)
      · exact Nat.le_trans (by simp [ReadState.put]) (ih _)

theorem fget_loop_size (data : List Char) (eof : Bool) :
    ∀ st : ReadState, st.size = 128 * 2 ^ st.grows →
      (fget_loop data eof st).1.size = 128 * 2 ^ (fget_loop data eof st).1.grows := by
  induction data with
  | nil => intro st h; simpa [fget_loop] using h
  | cons c data ih =>
    intro st h
    simp only [fget_loop]
    split
    · simpa [ReadState.put] using h
    · split
      · apply ih
        simp [ReadState.put, ReadState.grow, h, pow_succ]; ring
      · apply ih
        simpa [ReadState.put] using h

/-- A line that reaches the capacity makes the block grow. -/
theorem fget_loop_grows (L : List Char) (hL : ∀ c ∈ L, c ≠ NL) (term : List Char)
    (eof : Bool) :
    ∀ st : ReadState, st.p < st.size → st.size ≤ st.p + L.length →
      st.grows + 1 ≤ (fget_loop (L ++ term) eof st).1.grows := by
  induction L with
  | nil => intro st h1 h2; simp at h2; omega
  | cons c L ih =>
    intro st h1 h2
    have hc : c ≠ NL := hL c (by simp)
    simp only [List.cons_append, fget_loop, if_neg hc]
    split
    · exact Nat.le_trans (by simp [ReadState.put, ReadState.grow])
        (fget_loop_grows_mono _ _ _)
    · rename_i hlt
      have hlt' : st.p + 1 < st.size := by simpa [ReadState.put] using hlt
      have := ih (fun x hx => hL x (by simp [hx])) (st.put c)
        (by simpa [ReadState.put] using hlt')
        (by simp only [ReadState.put, List.length_cons] at h2 ⊢; omega)
      simpa [ReadState.put] using this

/-- The loop of `fget_string` read with `fgetc`: one iteration takes the next
result of `fgetc`, ends on `EOF` or after storing a line terminator, and
otherwise goes on, in a larger block when the cursor has reached the
capacity. -/
theorem fget_loop_fgetc (f : FILE) (st : ReadState) :
    fget_loop f.data f.eof st
      = match fgetc f with
        | (none, f') => (st, f')
        | (some c, f') =>
          if c = NL then (st.put c, f')
          else fget_loop f'.data f'.eof
            (if (st.put c).p ≥ (st.put c).size then (st.put c).grow else st.put c) := by
  obtain ⟨data, eof⟩ := f
  cases data <;> simp [fgetc, fget_loop]

/-! ## fget_string and main -/

theorem NL_ne_NUL : NL ≠ NUL := by decide

/-- On an open stream whose indicator is clear and which holds `L`, free of
line terminators, and then `term`, `fget_string` returns a block that holds
`L`, the terminator when there is one, and the null marker. -/
theorem fget_string_spec (f : FILE) (hf : f.eof = false) (L term : List Char)
    (hd : f.data = L ++ term) (hL : ∀ c ∈ L, c ≠ NL)
    (hterm : term = [] ∨ ∃ rest, term = NL :: rest) :
    ∃ b, fget_string (some f) = some b
      ∧ b.mem = L ++ term.take 1 ++ [NUL]
      ∧ b.size = 128 * 2 ^ b.grows
      ∧ (128 ≤ L.length → 1 ≤ b.grows)
      ∧ b.fp = (if term = [] then { data := [], eof := true }
                else { data := term.drop 1, eof := false }) := by
  have h0 := fget_loop_spec L hL term hterm false
    { pp := [], p := 0, size := 128, grows := 0 } rfl
  have hs := fget_loop_size (L ++ term) false
    { pp := [], p := 0, size := 128, grows := 0 } rfl
  refine ⟨_, by simp only [fget_string, feof, hf, hd]; rfl, ?_, hs, ?_, h0.2.2⟩
  · have hp : (fget_loop (L ++ term) false
        { pp := [], p := 0, size := 128, grows := 0 }).1.p
        = (fget_loop (L ++ term) false
            { pp := [], p := 0, size := 128, grows := 0 }).1.pp.length := by
      rw [h0.2.1, h0.1]; simp
    simp only [hp, poke_end, h0.1]
    simp
  · intro hlen
    have := fget_loop_grows L hL term false
      { pp := [], p := 0, size := 128, grows := 0 } (by simp) (by simpa using hlen)
    simpa using this

theorem cstr_line (t : List Char) (ht : ∀ c ∈ t, c ≠ NUL) (x : List Char) :
    cstr (t ++ NUL :: x) 0 = t := by
  have := cstr_shape [] t (NUL :: x) ht (Or.inr ⟨x, rfl⟩)
  simpa using this

theorem main_spec (fp : Option FILE) (b : LineBuf) (hb : fget_string fp = some b) :
    main fp = some ("Input was ".toList ++ cstr b.mem 0 ++ [NL]
      ++ ("Number of words is ".toList ++ to_string (countRuns (cstr b.mem 0)))) := by
  obtain ⟨s', hs⟩ := splice_new_spec b.mem
  simp [main, hb, hs, splice.getsentence]

/-- A line ended by a line terminator is returned with the terminator. -/
theorem fget_string_terminated (L rest : List Char) (hNL : ∀ c ∈ L, c ≠ NL)
    (hNUL : ∀ c ∈ L, c ≠ NUL) :
    ∃ b, fget_string (some { data := L ++ NL :: rest, eof := false }) = some b
      ∧ b.mem = L ++ [NL, NUL]
      ∧ cstr b.mem 0 = L ++ [NL] := by
  obtain ⟨b, hb, hmem, -, -, -⟩ := fget_string_spec
    { data := L ++ NL :: rest, eof := false } rfl L (NL :: rest) rfl hNL
    (Or.inr ⟨rest, rfl⟩)
  have hmem' : b.mem = L ++ [NL, NUL] := by simpa using hmem
  refine ⟨b, hb, hmem', ?_⟩
  have := cstr_line (L ++ [NL]) (by
    intro c hc
    rcases List.mem_append.1 hc with hc | hc
    · exact hNUL c hc
    · simp only [List.mem_singleton] at hc
      subst hc; exact NL_ne_NUL) []
  simpa [hmem'] using this

/-! ## The line reader on an empty stream -/

/-- C6, on the code: `fget_string` returns the null pointer for a null stream
and for a stream whose end-of-file indicator is set, but on an open stream
that holds no byte and whose indicator is still clear it returns a buffer of
capacity 128 that holds the null marker alone. -/
theorem fget_string_empty_stream :
    fget_string none = none
    ∧ (∀ data, fget_string (some { data := data, eof := true }) = none)
    ∧ fget_string (some { data := [], eof := false })
        = some { mem := [NUL], size := 128, grows := 0,
                 fp := { data := [], eof := true } } := by
  refine ⟨rfl, fun data => rfl, by decide⟩

/-! ## More on the loop of fget_string -/

/-- Whatever the stream holds, `fget_string` on an open stream whose indicator
is clear returns a block that holds the bytes of the stream up to and
including the first line terminator, or all of them when there is none,
followed by the null marker, and leaves the bytes behind that terminator
unread. -/
theorem fget_string_any (data : List Char) :
    ∃ b, fget_string (some { data := data, eof := false }) = some b
      ∧ b.mem = data.takeWhile (fun c => c != NL)
          ++ (data.dropWhile (fun c => c != NL)).take 1 ++ [NUL]
      ∧ b.size = 128 * 2 ^ b.grows
      ∧ b.fp.data = (data.dropWhile (fun c => c != NL)).drop 1 := by
  have hterm : data.dropWhile (fun c => c != NL) = []
      ∨ ∃ rest, data.dropWhile (fun c => c != NL) = NL :: rest := by
    have h := List.head?_dropWhile_not (fun c => c != NL) data
    cases hd : data.dropWhile (fun c => c != NL) with
    | nil => exact Or.inl rfl
    | cons c rest =>
      rw [hd] at h
      simp only [List.head?_cons, bne_eq_false_iff_eq] at h
      exact Or.inr ⟨rest, by rw [h]⟩
  obtain ⟨b, hb, hmem, hsize, -, hfp⟩ := fget_string_spec
    { data := data, eof := false } rfl (data.takeWhile (fun c => c != NL))
    (data.dropWhile (fun c => c != NL))
    (List.takeWhile_append_dropWhile _ data).symm
    (fun c hc => by simpa using List.mem_takeWhile_imp hc) hterm
  refine ⟨b, hb, hmem, hsize, ?_⟩
  rw [hfp]
  split
  · rename_i h; simp [h]
  · rfl

/-- The loop keeps the cursor within the capacity, and the capacity at the
least power-of-two multiple of 128 above the cursor. -/
theorem fget_loop_inv (data : List Char) (eof : Bool) :
    ∀ st : ReadState, st.p < st.size → (st.size = 128 ∨ st.size ≤ 2 * st.p) →
      (fget_loop data eof st).1.p ≤ (fget_loop data eof st).1.size
      ∧ ((fget_loop data eof st).1.size = 128
          ∨ (fget_loop data eof st).1.size ≤ 2 * (fget_loop data eof st).1.p)
      ∧ ((∀ c ∈ data, c ≠ NL) →
          (fget_loop data eof st).1.p < (fget_loop data eof st).1.size) := by
  induction data with
  | nil => intro st h1 h2; exact ⟨by simp [fget_loop]; omega, by simpa [fget_loop] using h2,
      fun _ => by simpa [fget_loop] using h1⟩
  | cons c data ih =>
    intro st h1 h2
    simp only [fget_loop]
    split
    · rename_i hc
      refine ⟨by simp [ReadState.put]; omega, ?_, fun h => absurd hc (h c (by simp))⟩
      rcases h2 with h2 | h2
      · exact Or.inl (by simpa [ReadState.put] using h2)
      · exact Or.inr (by simp [ReadState.put]; omega)
    · have hrest : (∀ x ∈ c :: data, x ≠ NL) → ∀ x ∈ data, x ≠ NL :=
        fun h x hx => h x (by simp [hx])
      split
      · rename_i hge
        have hge' : st.size ≤ st.p + 1 := by simpa [ReadState.put] using hge
        have := ih (st.put c).grow (by simp [ReadState.put, ReadState.grow]; omega)
          (Or.inr (by simp [ReadState.put, ReadState.grow]; omega))
        exact ⟨this.1, this.2.1, fun h => this.2.2 (hrest h)⟩
      · rename_i hlt
        have hlt' : st.p + 1 < st.size := by simpa [ReadState.put] using hlt
        have := ih (st.put c) (by simpa [ReadState.put] using hlt')
          (by
            rcases h2 with h2 | h2
            · exact Or.inl (by simpa [ReadState.put] using h2)
            · exact Or.inr (by simp [ReadState.put]; omega))
        exact ⟨this.1, this.2.1, fun h => this.2.2 (hrest h)⟩

theorem fget_loop_len (data : List Char) (eof : Bool) :
    ∀ st : ReadState, st.pp.length = st.p →
      (fget_loop data eof st).1.pp.length = (fget_loop data eof st).1.p := by
  induction data with
  | nil => intro st h; simpa [fget_loop] using h
  | cons c data ih =>
    intro st h
    have hp := put_spec st c h
    have hlen : (st.put c).pp.length = (st.put c).p := by simp [hp.1, hp.2.1, h]
    simp only [fget_loop]
    split
    · exact hlen
    · split
      · have hg := grow_spec (st.put c) hlen
        exact ih _ (by rw [hg.1, hg.2]; exact hlen)
      · exact ih _ hlen

theorem cstr_length_le (pre : List Char) : (cstr (pre ++ [NUL]) 0).length ≤ pre.length := by
  induction pre with
  | nil => simp [cstr]
  | cons c pre ih =>
    simp only [cstr, List.drop_zero, List.cons_append] at ih ⊢
    by_cases hc : c = NUL
    · simp [List.takeWhile_cons, hc]
    · simp only [List.takeWhile_cons, bne_iff_ne, ne_eq, hc, not_false_eq_true, if_true,
        List.length_cons]
      omega

/-- On every open stream whose indicator is clear `fget_string` returns a
block whose bytes, the null marker left aside, do not exceed the capacity,
and stay below it when the stream holds no line terminator. -/
theorem fget_string_capacity (data : List Char) :
    ∃ b, fget_string (some { data := data, eof := false }) = some b
      ∧ b.size = 128 * 2 ^ b.grows
      ∧ b.mem.length ≤ b.size + 1
      ∧ (cstr b.mem 0).length ≤ b.size
      ∧ ((∀ c ∈ data, c ≠ NL) → b.mem.length ≤ b.size) := by
  have hlen := fget_loop_len data false { pp := [], p := 0, size := 128, grows := 0 } rfl
  have hinv := fget_loop_inv data false { pp := [], p := 0, size := 128, grows := 0 }
    (by simp) (Or.inl rfl)
  have hs := fget_loop_size data false { pp := [], p := 0, size := 128, grows := 0 } rfl
  have hmem : poke (fget_loop data false { pp := [], p := 0, size := 128, grows := 0 }).1.pp
      (fget_loop data false { pp := [], p := 0, size := 128, grows := 0 }).1.p NUL
      = (fget_loop data false { pp := [], p := 0, size := 128, grows := 0 }).1.pp ++ [NUL] := by
    rw [← hlen, poke_end]
  refine ⟨_, rfl, hs, ?_, ?_, ?_⟩
  · simp only [hmem, List.length_append, List.length_singleton, hlen]
    exact Nat.succ_le_succ hinv.1
  · simp only [hmem]
    exact Nat.le_trans (cstr_length_le _) (by rw [hlen]; exact hinv.1)
  · intro h
    simp only [hmem, List.length_append, List.length_singleton, hlen]
    exact hinv.2.2 h

/-- A line that ends before the cursor reaches the capacity leaves the block
and its capacity as they are. -/
theorem fget_loop_same (L : List Char) (hL : ∀ c ∈ L, c ≠ NL) (term : List Char)
    (hterm : term = [] ∨ ∃ rest, term = NL :: rest) (eof : Bool) :
    ∀ st : ReadState, st.p + L.length < st.size →
      (fget_loop (L ++ term) eof st).1.size = st.size
      ∧ (fget_loop (L ++ term) eof st).1.grows = st.grows := by
  induction L with
  | nil =>
    intro st _
    rcases hterm with rfl | ⟨rest, rfl⟩
    · simp [fget_loop]
    · simp [fget_loop, ReadState.put]
  | cons c L ih =>
    intro st h
    have hc : c ≠ NL := hL c (by simp)
    simp only [List.length_cons] at h
    have hlt : ¬ (st.put c).p ≥ (st.put c).size := by
      simp [ReadState.put]; omega
    simp only [List.cons_append, fget_loop, if_neg hc, if_neg hlt]
    have := ih (fun x hx => hL x (by simp [hx])) (st.put c)
      (by simp [ReadState.put]; omega)
    simpa [ReadState.put] using this

/-- A line of 127 bytes followed by the line terminator fills the first block
exactly: the capacity stays 128 and the null marker is stored at offset
128. -/
theorem fget_string_full_block (L : List Char) (hL : ∀ c ∈ L, c ≠ NL)
    (hlen : L.length = 127) :
    (fget_string (some { data := L ++ [NL], eof := false })).map
        (fun b => (b.size, b.mem.length, b.mem[128]?))
      = some (128, 129, some NUL) := by
  have hspec := fget_loop_spec L hL [NL] (Or.inr ⟨[], rfl⟩) false
    { pp := [], p := 0, size := 128, grows := 0 } rfl
  have hsame := fget_loop_same L hL [NL] (Or.inr ⟨[], rfl⟩) false
    { pp := [], p := 0, size := 128, grows := 0 } (by simp [hlen])
  have hpp : (fget_loop (L ++ [NL]) false
      { pp := [], p := 0, size := 128, grows := 0 }).1.pp = L ++ [NL] := by
    simpa using hspec.1
  have hp : (fget_loop (L ++ [NL]) false
      { pp := [], p := 0, size := 128, grows := 0 }).1.p = 128 := by
    simpa [hlen] using hspec.2.1
  have hmem : poke (L ++ [NL]) 128 NUL = L ++ [NL] ++ [NUL] := by
    have := poke_end (L ++ [NL]) NUL
    simpa [hlen] using this
  have hget : (L ++ [NL] ++ [NUL])[128]? = some NUL := by
    rw [List.getElem?_append_right (by simp [hlen])]
    simp [hlen]
  simp only [fget_string, feof, Bool.false_eq_true, if_false, Option.map_some', hpp, hp,
    hsame.1, hmem, hget]
  simp [hlen]

/-! ## The stores of setword_list -/

/-- The stores into the array follow the loop of `setword_list`: when the loop
ends with an array, this array is the one it started with followed by the
words, and the word number `i` was stored at index `move + i`. -/
theorem setword_list_moves_spec (fuel : Nat) :
    ∀ (r : Option Nat) (st : TokState) (cArr : List (List Char)) (count move : Nat)
      (log : List Nat) (res : List (List Char) × Nat × TokState),
      setword_list_loop fuel r st cArr count = some res →
      ∃ ws, res.1 = cArr ++ ws
        ∧ setword_list_moves fuel r st move log
            = some (log ++ List.range' move ws.length) := by
  induction fuel with
  | zero =>
    intro r st cArr count move log res h
    cases r with
    | none =>
      simp only [setword_list_loop, Option.some.injEq] at h
      exact ⟨[], by simp [← h], by simp [setword_list_moves]⟩
    | some split => simp [setword_list_loop] at h
  | succ fuel ih =>
    intro r st cArr count move log res h
    cases r with
    | none =>
      simp only [setword_list_loop, Option.some.injEq] at h
      exact ⟨[], by simp [← h], by simp [setword_list_moves]⟩
    | some split =>
      simp only [setword_list_loop] at h
      obtain ⟨ws, hws, hm⟩ := ih _ _ _ _ (move + 1) (log ++ [move]) res h
      refine ⟨cstr st.mem split :: ws, by simp [hws], ?_⟩
      simp only [setword_list_moves, hm]
      simp [List.range'_succ]

theorem setword_list_stores_spec (s : List Char) :
    setword_list_stores s = some (List.range (countRuns (cstr s 0) + 1)) := by
  obtain ⟨st', h⟩ := setword_list_loop_spec (s.length + 1) (some 0)
    { mem := s, olds := 0 } [] s [[]] 0 (by simp) (by simp) (by omega)
  obtain ⟨ws, hws, hm⟩ := setword_list_moves_spec (s.length + 1) _ _ _ _ 1 [0] _ h
  have hlen : ws.length = countRuns (cstr s 0) := by
    have := List.append_cancel_left hws
    rw [← this, length_maximalRuns]
    simp [cstr]
  unfold setword_list_stores
  simp only [hm, hlen]
  rw [List.range_eq_range', List.range'_succ]
  simp

/-! ## The text of the count -/

theorem to_string_length (n : Nat) : (to_string n).length + 1 ≤ 4 ↔ n < 1000 := by
  rw [to_string_eq]
  by_cases h0 : n = 0
  · simp [h0]
  · rw [if_neg h0]
    simp only [List.length_map, List.length_reverse]
    constructor
    · intro h
      have h1 : n < 10 ^ (Nat.digits 10 n).length :=
        Nat.lt_base_pow_length_digits (by norm_num)
      have h2 : 10 ^ (Nat.digits 10 n).length ≤ 10 ^ 3 :=
        Nat.pow_le_pow_right (by norm_num) (by omega)
      omega
    · intro h
      by_contra hlen
      have h1 : 10 ^ (Nat.digits 10 n).length ≤ 10 * n :=
        Nat.base_pow_length_digits_le 10 n (by norm_num) h0
      have h2 : 10 ^ 4 ≤ 10 ^ (Nat.digits 10 n).length :=
        Nat.pow_le_pow_right (by norm_num) (by omega)
      omega

theorem countRuns_letters (c : Char) (hc : c ≠ SP) (n : Nat) :
    countRuns (List.replicate n [c, SP]).flatten = n := by
  induction n with
  | zero => rfl
  | succ n ih =>
    simp only [countRuns] at ih
    simp [List.replicate_succ, countRuns, countRunsFrom, hc, ih]
    omega

/-- The line of `n` words of one letter, each followed by a space, has a count
element that is the decimal text of `n`. -/
theorem splice_letters (c : Char) (hc : c ≠ SP) (hn : c ≠ NUL) (n : Nat) :
    (splice.new ((List.replicate n [c, SP]).flatten ++ [NUL])).map
        (fun x => x.word_list.head?) = some (some (to_string n)) := by
  obtain ⟨s', h⟩ := splice_new_spec ((List.replicate n [c, SP]).flatten ++ [NUL])
  have hline : cstr ((List.replicate n [c, SP]).flatten ++ [NUL]) 0
      = (List.replicate n [c, SP]).flatten := by
    apply cstr_line
    intro x hx
    simp only [List.mem_flatten, List.mem_replicate] at hx
    obtain ⟨l, ⟨-, rfl⟩, hx⟩ := hx
    simp only [List.mem_cons, List.mem_singleton, List.not_mem_nil, or_false] at hx
    rcases hx with rfl | rfl
    · exact hn
    · exact SP_ne_NUL
  rw [h, hline, countRuns_letters c hc n]
  rfl

/-! ## The words and the line -/

theorem flatten_runsFrom (t : List Char) :
    ∀ cur, (runsFrom cur t).flatten = cur ++ t.filter (fun c => c != SP) := by
  induction t with
  | nil => intro cur; by_cases h : cur = [] <;> simp [runsFrom, h]
  | cons c t ih =>
    intro cur
    by_cases hc : c = SP
    · by_cases h : cur = [] <;> simp [runsFrom, hc, h, ih]
    · simp [runsFrom, hc, ih]

theorem flatten_maximalRuns (t : List Char) :
    (maximalRuns t).flatten = t.filter (fun c => c != SP) := by
  simpa [maximalRuns] using flatten_runsFrom t []

theorem mem_of_mem_maximalRuns (t w : List Char) (hw : w ∈ maximalRuns t) :
    ∀ c ∈ w, c ∈ t := by
  intro c hc
  have h : c ∈ (maximalRuns t).flatten := List.mem_flatten.2 ⟨w, hw, hc⟩
  rw [flatten_maximalRuns] at h
  exact (List.mem_filter.1 h).1

theorem cstr_no_NUL (mem : List Char) (p : Nat) : ∀ c ∈ cstr mem p, c ≠ NUL := by
  intro c hc
  simpa using List.mem_takeWhile_imp hc

theorem joinWords_cons_cons (w w2 : List Char) (ws : List (List Char)) :
    joinWords (w :: w2 :: ws) = w ++ SP :: joinWords (w2 :: ws) := by
  simp [joinWords, List.intercalate, List.intersperse]

theorem mem_joinWords (ws : List (List Char)) :
    ∀ c ∈ joinWords ws, c = SP ∨ ∃ w ∈ ws, c ∈ w := by
  induction ws with
  | nil => intro c hc; simp [joinWords, List.intercalate] at hc
  | cons w ws ih =>
    intro c hc
    cases ws with
    | nil =>
      have : c ∈ w := by simpa [joinWords, List.intercalate] using hc
      exact Or.inr ⟨w, by simp, this⟩
    | cons w2 ws =>
      rw [joinWords_cons_cons] at hc
      rcases List.mem_append.1 hc with h | h
      · exact Or.inr ⟨w, by simp, h⟩
      · rcases List.mem_cons.1 h with h | h
        · exact Or.inl h
        · rcases ih c h with h | ⟨v, hv, hcv⟩
          · exact Or.inl h
          · exact Or.inr ⟨v, List.mem_cons_of_mem _ hv, hcv⟩

/-- Words that are not empty and hold no space are the maximal runs of the
line made of them with single spaces in between. -/
theorem maximalRuns_joinWords (ws : List (List Char))
    (h : ∀ w ∈ ws, w ≠ [] ∧ ∀ c ∈ w, c ≠ SP) : maximalRuns (joinWords ws) = ws := by
  induction ws with
  | nil => rfl
  | cons w ws ih =>
    have hw := h w (by simp)
    cases ws with
    | nil =>
      have := maximalRuns_last 0 w hw.2 hw.1
      simpa [joinWords, List.intercalate] using this
    | cons w2 ws =>
      have := maximalRuns_step 0 w (joinWords (w2 :: ws)) hw.2 hw.1
      rw [joinWords_cons_cons]
      simp only [List.replicate_zero, List.nil_append] at this
      rw [this, ih (fun v hv => h v (List.mem_cons_of_mem _ hv))]

theorem cstr_append_NUL (pre : List Char) :
    cstr (pre ++ [NUL]) 0 = pre.takeWhile (fun c => c != NUL) := by
  induction pre with
  | nil => simp [cstr]
  | cons c pre ih =>
    simp only [cstr, List.drop_zero, List.cons_append] at ih ⊢
    by_cases hc : c = NUL
    · simp [List.takeWhile_cons, hc]
    · simp [List.takeWhile_cons, hc, ih]

/-! ## Absent input, capacities and bounds -/

/-- C11, on the code: `main` hands whatever `fget_string` returned to the
constructor of `splice` without a test; with a stream that could not be
opened `fget_string` returns the null pointer and `main` has no defined
output, and on an empty file `main` prints the two lines for an empty line
as if a line had been read. -/
theorem main_no_check :
    fget_string none = none
    ∧ main none = none
    ∧ main (some { data := [], eof := false })
        = some ("Input was ".toList ++ [NL] ++ "Number of words is 0".toList) := by
  decide

/-- C13, on the code: as long as no line terminator has been read the cursor
stays below the capacity, so every appended byte that is not a line
terminator, and the null marker after a stream without one, is stored
inside the block; but for 127 bytes followed by the line terminator the
terminator is stored at offset 127, the capacity is still 128 and the null
marker is stored at offset 128. -/
theorem fget_string_nul_store :
    (∀ L : List Char, (∀ c ∈ L, c ≠ NL) →
      (fget_loop L false { pp := [], p := 0, size := 128, grows := 0 }).1.p
        < (fget_loop L false { pp := [], p := 0, size := 128, grows := 0 }).1.size)
    ∧ (fget_string (some { data := List.replicate 127 (Char.ofNat 97) ++ [NL],
                           eof := false })).map
        (fun b => (b.size, b.mem.length, b.mem[128]?))
        = some (128, 129, some NUL) := by
  refine ⟨fun L hL => ?_, ?_⟩
  · exact (fget_loop_inv L false { pp := [], p := 0, size := 128, grows := 0 }
      (by simp) (Or.inl rfl)).2.2 hL
  · exact fget_string_full_block (List.replicate 127 (Char.ofNat 97))
      (fun c hc => by rw [List.eq_of_mem_replicate hc]; decide)
      (List.length_replicate _ _)

/-- C15, on the code: for every line `setword_list` stores a pointer at each
of the indices 0 to `W`, where `W` is the number of words, and the array
has one slot; for the line "a" the stores are at the indices 0 and 1, and
index 1 is not below the number of slots. -/
theorem setword_list_store_indices :
    (∀ s : List Char,
      setword_list_stores s = some (List.range (countRuns (cstr s 0) + 1)))
    ∧ cArr_slots = 1
    ∧ setword_list_stores "a".toList = some [0, 1]
    ∧ ¬ (1 < cArr_slots) := by
  refine ⟨setword_list_stores_spec, rfl, by decide, by decide⟩

/-- C16, on the code: the decimal text of a count with its null marker fits
in the 4 bytes of element 0 exactly when the count is below 1000; for the
line of 1000 words "a" the count element is "1000", which takes 5 bytes with
its null marker. -/
theorem count_text_bytes :
    (∀ n : Nat, (to_string n).length + 1 ≤ count_block_size ↔ n < 1000)
    ∧ (splice.new ((List.replicate 1000 "a ".toList).flatten ++ [NUL])).map
        (fun x => x.word_list.head?) = some (some "1000".toList)
    ∧ ¬ ("1000".toList.length + 1 ≤ count_block_size) := by
  refine ⟨to_string_length, ?_, by decide⟩
  have h := splice_letters (Char.ofNat 97) (by decide) (by decide) 1000
  have h1000 : to_string 1000 = "1000".toList := by decide
  rw [h1000] at h
  exact h


/-! ## The checked loop of fget_string -/

theorem capacity_le (g : Nat) (h : g ≤ 23) : 128 * 2 ^ g ≤ 1073741824 := by
  have := Nat.pow_le_pow_right (by norm_num : 0 < 2) h
  norm_num at this
  omega

theorem capacity_lt (g : Nat) (h : 128 * 2 ^ g < 1073741824) : g < 23 := by
  by_contra hge
  have := Nat.pow_le_pow_right (by norm_num : 0 < 2) (Nat.le_of_not_lt hge)
  norm_num at this
  omega

/-- A checked run of the loop that ends with a value ends with the value of
the loop. -/
theorem checked_fget_loop_ok (data : List Char) (eof : Bool) :
    ∀ (st : ReadState) (r : ReadState × FILE),
      Checked.fget_loop data eof st = Run.ok r → r = fget_loop data eof st := by
  induction data with
  | nil =>
    intro st r h
    simp only [Checked.fget_loop, Run.ok.injEq] at h
    simp [fget_loop, ← h]
  | cons c data ih =>
    intro st r h
    simp only [Checked.fget_loop] at h
    simp only [fget_loop]
    split at h
    · simp at h
    · split at h
      · rename_i hc
        simp only [Run.ok.injEq] at h
        simp [hc, ← h]
      · rename_i hc
        simp only [if_neg hc]
        split at h
        · rename_i hge
          simp only [if_pos hge]
          split at h
          · simp at h
          · exact ih _ _ h
        · rename_i hge
          simp only [if_neg hge]
          exact ih _ _ h

/-- Below `2^30` bytes the checked loop meets no fault: it ends with the value
of the loop. -/
theorem checked_fget_loop_defined (L : List Char) (hL : ∀ c ∈ L, c ≠ NL)
    (term : List Char) (hterm : term = [] ∨ ∃ rest, term = NL :: rest) (eof : Bool) :
    ∀ st : ReadState, st.p < st.size → st.size = 128 * 2 ^ st.grows → st.grows ≤ 23 →
      st.p + L.length < 1073741824 →
      Checked.fget_loop (L ++ term) eof st = Run.ok (fget_loop (L ++ term) eof st) := by
  induction L with
  | nil =>
    intro st h1 _ _ _
    rcases hterm with rfl | ⟨rest, rfl⟩
    · simp [Checked.fget_loop, fget_loop]
    · simp [Checked.fget_loop, fget_loop, Nat.not_le.2 h1]
  | cons c L ih =>
    intro st h1 h2 h3 h4
    have hc : c ≠ NL := hL c (by simp)
    have hL' : ∀ x ∈ L, x ≠ NL := fun x hx => hL x (by simp [hx])
    simp only [List.length_cons] at h4
    simp only [List.cons_append, Checked.fget_loop, fget_loop, Nat.not_le.2 h1, if_false,
      if_neg hc]
    by_cases hge : (st.put c).p ≥ (st.put c).size
    · have hge' : st.size ≤ st.p + 1 := by simpa [ReadState.put] using hge
      have hlt : 128 * 2 ^ st.grows < 1073741824 := by omega
      have hg := capacity_lt _ hlt
      have hno : ¬ INT_MAX < (st.put c).size + (st.put c).size := by
        simp [ReadState.put, INT_MAX]; omega
      simp only [if_pos hge, if_neg hno]
      exact ih hL' (st.put c).grow (by simp [ReadState.put, ReadState.grow]; omega)
        (by simp [ReadState.put, ReadState.grow, h2, pow_succ]; ring)
        (by simp [ReadState.put, ReadState.grow]; omega)
        (by simp [ReadState.put, ReadState.grow]; omega)
    · have hlt : st.p + 1 < st.size := by simpa [ReadState.put] using hge
      simp only [if_neg hge]
      exact ih hL' (st.put c) (by simpa [ReadState.put] using hlt)
        (by simpa [ReadState.put] using h2) (by simpa [ReadState.put] using h3)
        (by simp [ReadState.put]; omega)

/-- A line of `2^30` bytes or more makes `size += size` overflow. -/
theorem checked_fget_loop_overflow (L : List Char) (hL : ∀ c ∈ L, c ≠ NL)
    (tail : List Char) (eof : Bool) :
    ∀ st : ReadState, st.p < st.size → st.size = 128 * 2 ^ st.grows → st.grows ≤ 23 →
      1073741824 ≤ st.p + L.length →
      Checked.fget_loop (L ++ tail) eof st = Run.undefined Fault.int_overflow := by
  induction L with
  | nil =>
    intro st h1 h2 h3 h4
    have := capacity_le _ h3
    simp at h4
    omega
  | cons c L ih =>
    intro st h1 h2 h3 h4
    have hc : c ≠ NL := hL c (by simp)
    have hL' : ∀ x ∈ L, x ≠ NL := fun x hx => hL x (by simp [hx])
    have hcap := capacity_le _ h3
    simp only [List.length_cons] at h4
    simp only [List.cons_append, Checked.fget_loop, Nat.not_le.2 h1, if_false, if_neg hc]
    by_cases hge : (st.put c).p ≥ (st.put c).size
    · have hge' : st.size ≤ st.p + 1 := by simpa [ReadState.put] using hge
      simp only [if_pos hge]
      by_cases hov : INT_MAX < (st.put c).size + (st.put c).size
      · simp [hov]
      · have hov' : st.size + st.size ≤ 2147483647 := by
          simpa [ReadState.put, INT_MAX] using hov
        have hg := capacity_lt st.grows (by omega)
        simp only [if_neg hov]
        exact ih hL' (st.put c).grow (by simp [ReadState.put, ReadState.grow]; omega)
          (by simp [ReadState.put, ReadState.grow, h2, pow_succ]; ring)
          (by simp [ReadState.put, ReadState.grow]; omega)
          (by simp [ReadState.put, ReadState.grow]; omega)
    · have hlt : st.p + 1 < st.size := by simpa [ReadState.put] using hge
      simp only [if_neg hge]
      exact ih hL' (st.put c) (by simpa [ReadState.put] using hlt)
        (by simpa [ReadState.put] using h2) (by simpa [ReadState.put] using h3)
        (by simp [ReadState.put]; omega)

/-! ## The checked fget_string -/

theorem fget_loop_terminated (L : List Char) (hL : ∀ c ∈ L, c ≠ NL) (rest : List Char)
    (eof : Bool) :
    ∀ st : ReadState,
      fget_loop (L ++ NL :: rest) eof st
        = ((fget_loop L eof st).1.put NL, { data := rest, eof := eof }) := by
  induction L with
  | nil => intro st; simp [fget_loop]
  | cons c L ih =>
    intro st
    have hc : c ≠ NL := hL c (by simp)
    have hL' : ∀ x ∈ L, x ≠ NL := fun x hx => hL x (by simp [hx])
    simp only [List.cons_append, fget_loop, if_neg hc]
    split <;> exact ih hL' _

/-- After a line without terminator the capacity is the least `128 * 2^k`
above the number of bytes of the line. -/
theorem fget_loop_least (L : List Char) (hL : ∀ c ∈ L, c ≠ NL) (eof : Bool) :
    (fget_loop L eof { pp := [], p := 0, size := 128, grows := 0 }).1.p = L.length
    ∧ L.length < (fget_loop L eof { pp := [], p := 0, size := 128, grows := 0 }).1.size
    ∧ ∀ k, L.length < 128 * 2 ^ k →
        (fget_loop L eof { pp := [], p := 0, size := 128, grows := 0 }).1.size
          ≤ 128 * 2 ^ k := by
  have hsz := fget_loop_size L eof { pp := [], p := 0, size := 128, grows := 0 } rfl
  have hspec := fget_loop_spec L hL [] (Or.inl rfl) eof
    { pp := [], p := 0, size := 128, grows := 0 } rfl
  have hinv := fget_loop_inv L eof { pp := [], p := 0, size := 128, grows := 0 }
    (by simp) (Or.inl rfl)
  simp only [List.append_nil] at hspec
  have hp : (fget_loop L eof { pp := [], p := 0, size := 128, grows := 0 }).1.p
      = L.length := by
    have := hspec.2.1
    simpa using this
  have hlt := hinv.2.2 hL
  have hmin := hinv.2.1
  rw [hp] at hlt hmin
  refine ⟨hp, hlt, ?_⟩
  intro k hk
  rcases hmin with h128 | h2
  · rw [h128]
    have : 1 ≤ 2 ^ k := Nat.one_le_two_pow
    omega
  · by_contra hgt
    have hkg : k < (fget_loop L eof
        { pp := [], p := 0, size := 128, grows := 0 }).1.grows := by
      by_contra hle
      have := Nat.pow_le_pow_right (by norm_num : 0 < 2) (Nat.le_of_not_lt hle)
      omega
    have hpow := Nat.pow_le_pow_right (by norm_num : 0 < 2) (Nat.succ_le_of_lt hkg)
    rw [pow_succ] at hpow
    omega

/-- Away from the lengths at which the terminator fills the block, and below
`2^30` bytes, the checked `fget_string` meets no fault and returns what
`fget_string` returns. -/
theorem checked_fget_string_defined (L : List Char) (hL : ∀ c ∈ L, c ≠ NL)
    (term : List Char) (hterm : term = [] ∨ ∃ rest, term = NL :: rest)
    (hlen : L.length < 1073741824)
    (hcap : term ≠ [] → ∀ k, L.length + 1 ≠ 128 * 2 ^ k) :
    Checked.fget_string (some { data := L ++ term, eof := false })
      = Run.ok (fget_string (some { data := L ++ term, eof := false })) := by
  have hrun := checked_fget_loop_defined L hL term hterm false
    { pp := [], p := 0, size := 128, grows := 0 } (by simp) (by simp) (by simp)
    (by simpa using hlen)
  have hsz := fget_loop_size (L ++ term) false
    { pp := [], p := 0, size := 128, grows := 0 } rfl
  have hspec := fget_loop_spec L hL term hterm false
    { pp := [], p := 0, size := 128, grows := 0 } rfl
  have hinv := fget_loop_inv (L ++ term) false
    { pp := [], p := 0, size := 128, grows := 0 } (by simp) (Or.inl rfl)
  have hin : ¬ (fget_loop (L ++ term) false
      { pp := [], p := 0, size := 128, grows := 0 }).1.size
      ≤ (fget_loop (L ++ term) false
          { pp := [], p := 0, size := 128, grows := 0 }).1.p := by
    rcases hterm with rfl | ⟨rest, rfl⟩
    · have := hinv.2.2 (by simpa using hL)
      omega
    · have hp := hspec.2.1
      simp only [List.take_succ_cons, List.take_zero, List.length_append,
        List.length_singleton, Nat.zero_add] at hp
      have hne := hcap (by simp)
        (fget_loop (L ++ NL :: rest) false
          { pp := [], p := 0, size := 128, grows := 0 }).1.grows
      have := hinv.1
      omega
  simp only [Checked.fget_string, fget_string, feof, Bool.false_eq_true, if_false, hrun,
    if_neg hin]

/-- A line whose terminator fills the block makes the store of the null marker
fall outside it. -/
theorem checked_fget_string_boundary (L : List Char) (hL : ∀ c ∈ L, c ≠ NL)
    (rest : List Char) (k : Nat) (hk : L.length + 1 = 128 * 2 ^ k)
    (hlen : L.length < 1073741824) :
    Checked.fget_string (some { data := L ++ NL :: rest, eof := false })
      = Run.undefined (Fault.store_outside (L.length + 1) (L.length + 1)) := by
  have hrun := checked_fget_loop_defined L hL (NL :: rest) (Or.inr ⟨rest, rfl⟩) false
    { pp := [], p := 0, size := 128, grows := 0 } (by simp) (by simp) (by simp)
    (by simpa using hlen)
  have hterm := fget_loop_terminated L hL rest false
    { pp := [], p := 0, size := 128, grows := 0 }
  have hleast := fget_loop_least L hL false
  have hsize : (fget_loop L false { pp := [], p := 0, size := 128, grows := 0 }).1.size
      = L.length + 1 := by
    have h1 := hleast.2.1
    have h2 := hleast.2.2 k (by omega)
    omega
  simp only [Checked.fget_string, feof, Bool.false_eq_true, if_false, hrun, hterm]
  simp [ReadState.put, hsize, hleast.1]

/-- A line of `2^30` bytes or more has no buffer: the capacity leaves `int`. -/
theorem checked_fget_string_overflow (L : List Char) (hL : ∀ c ∈ L, c ≠ NL)
    (tail : List Char) (hlen : 1073741824 ≤ L.length) :
    Checked.fget_string (some { data := L ++ tail, eof := false })
      = Run.undefined Fault.int_overflow := by
  have hrun := checked_fget_loop_overflow L hL tail false
    { pp := [], p := 0, size := 128, grows := 0 } (by simp) (by simp) (by simp)
    (by simpa using hlen)
  simp only [Checked.fget_string, feof, Bool.false_eq_true, if_false, hrun]

/-- A buffer returned by the checked `fget_string` is the one `fget_string`
returns, and its bytes, null marker included, are inside its capacity. -/
theorem checked_fget_string_ok (fp : Option FILE) (b : LineBuf)
    (h : Checked.fget_string fp = Run.ok (some b)) :
    fget_string fp = some b ∧ b.mem.length ≤ b.size := by
  cases fp with
  | none => simp [Checked.fget_string] at h
  | some f =>
    obtain ⟨data, eof⟩ := f
    cases eof with
    | true => simp [Checked.fget_string, feof] at h
    | false =>
      simp only [Checked.fget_string, feof, Bool.false_eq_true, if_false] at h
      split at h
      · simp at h
      · rename_i r hr
        have hr' := checked_fget_loop_ok data false _ r hr
        split at h
        · simp at h
        · rename_i hin
          simp only [Run.ok.injEq, Option.some.injEq] at h
          have hlen := fget_loop_len data false
            { pp := [], p := 0, size := 128, grows := 0 } rfl
          rw [← hr'] at hlen
          refine ⟨by simp [fget_string, feof, ← hr', h], ?_⟩
          rw [← h]
          simp only [← hlen, poke_end, List.length_append, List.length_singleton]
          rw [hlen]
          omega

/-! ## The checked setword_list -/

theorem strtok_none_mem (arg : Option Nat) (st : TokState)
    (h : (strtok arg st).1 = none) : (strtok arg st).2.mem = st.mem := by
  unfold strtok at h ⊢
  simp only at h ⊢
  split
  · rfl
  · rename_i hp
    simp only [if_neg hp] at h
    split at h <;> simp at h

/-- The first call of `strtok` finds a word exactly when the line has one. -/
theorem strtok_first (s : List Char) :
    (countRuns (cstr s 0) = 0 →
      (strtok (some 0) { mem := s, olds := 0 }).1 = none
      ∧ (strtok (some 0) { mem := s, olds := 0 }).2.mem = s)
    ∧ (countRuns (cstr s 0) ≠ 0 →
      ∃ tok, (strtok (some 0) { mem := s, olds := 0 }).1 = some tok) := by
  obtain ⟨st', h⟩ := setword_list_loop_spec (s.length + 1) (some 0)
    { mem := s, olds := 0 } [] s [[]] 0 (by simp) (by simp) (by omega)
  have hc : s.takeWhile (fun c => c != NUL) = cstr s 0 := by simp [cstr]
  rw [hc] at h
  cases hfirst : (strtok (some 0) { mem := s, olds := 0 }).1 with
  | none =>
    have hmem := strtok_none_mem _ _ hfirst
    rw [hfirst] at h
    simp only [setword_list_loop, Option.some.injEq, Prod.mk.injEq] at h
    have hnil : maximalRuns (cstr s 0) = [] := by
      have := h.1
      simpa using this.symm
    have h0 : countRuns (cstr s 0) = 0 := by
      rw [← length_maximalRuns, hnil]; rfl
    exact ⟨fun _ => ⟨rfl, hmem⟩, fun hne => absurd h0 hne⟩
  | some tok =>
    rw [hfirst] at h
    simp only [setword_list_loop] at h
    obtain ⟨ws, hws, -⟩ := setword_list_moves_spec s.length _ _ _ _ 0 [] _ h
    have hne : maximalRuns (cstr s 0) ≠ [] := by
      intro hnil
      rw [hnil] at hws
      have := congrArg List.length hws
      simp at this
    have h0 : countRuns (cstr s 0) ≠ 0 := by
      rw [← length_maximalRuns]
      exact fun hl => hne (List.length_eq_zero.1 hl)
    exact ⟨fun hz => absurd hz h0, fun _ => ⟨tok, rfl⟩⟩

/-- The checked `setword_list` ends with the count element "0" alone on a line
without a word and with the store of the first word outside `cArr` on every
other line. -/
theorem checked_setword_list_spec (s : List Char) :
    Checked.setword_list s
      = if countRuns (cstr s 0) = 0 then Run.ok (["0".toList], s)
        else Run.undefined (Fault.store_outside 1 1) := by
  have hf := strtok_first s
  by_cases h0 : countRuns (cstr s 0) = 0
  · obtain ⟨h1, h2⟩ := hf.1 h0
    rw [if_pos h0]
    unfold Checked.setword_list
    simp only [h1, Checked.setword_list_loop, h2]
    have hfit : ¬ count_block_size < (to_string 0).length + 1 := by decide
    have hzero : to_string 0 = "0".toList := by decide
    rw [if_neg hfit, hzero]
    rfl
  · obtain ⟨tok, h1⟩ := hf.2 h0
    rw [if_neg h0]
    unfold Checked.setword_list
    simp only [h1, cArr_slots, Nat.sub_self, Checked.setword_list_loop]

theorem checked_splice_new_spec (s : List Char) :
    Checked.splice_new (some s)
      = if countRuns (cstr s 0) = 0 then
          Run.ok { len := (cstr s 0).length, sentence := cstr s 0,
                   word_list := ["0".toList], s := s }
        else Run.undefined (Fault.store_outside 1 1) := by
  unfold Checked.splice_new
  simp only [checked_setword_list_spec s]
  by_cases h0 : countRuns (cstr s 0) = 0
  · simp [h0, strlen]
  · simp [h0]

theorem maximalRuns_eq_nil (t : List Char) (h : countRuns t = 0) : maximalRuns t = [] :=
  List.length_eq_zero.1 (by rw [length_maximalRuns, h])

theorem countRuns_ne_zero (t : List Char) (c : Char) (hc : c ∈ t) (hsp : c ≠ SP) :
    countRuns t ≠ 0 := by
  intro h0
  have hflat := flatten_maximalRuns t
  rw [maximalRuns_eq_nil t h0] at hflat
  have hmem : c ∈ t.filter (fun c => c != SP) := List.mem_filter.2 ⟨hc, by simpa using hsp⟩
  rw [← hflat] at hmem
  simp at hmem

theorem not_capacity_of_not_dvd (n : Nat) (h : ¬ 128 ∣ n) : ∀ k, n ≠ 128 * 2 ^ k :=
  fun k hk => h ⟨2 ^ k, hk⟩

/-- On a line without a word the checked constructor ends with the sentence,
the count element "0" and the line as it was. -/
theorem checked_splice_new_blank (s : List Char) (h0 : countRuns (cstr s 0) = 0) :
    Checked.splice_new (some s)
      = Run.ok { len := (cstr s 0).length, sentence := cstr s 0,
                 word_list := ["0".toList], s := s } := by
  rw [checked_splice_new_spec, if_pos h0]

/-- On a line with a word the checked constructor ends at the store of the
first word, at index 1 of the one-slot array. -/
theorem checked_splice_new_word (s : List Char) (h0 : countRuns (cstr s 0) ≠ 0) :
    Checked.splice_new (some s) = Run.undefined (Fault.store_outside 1 1) := by
  rw [checked_splice_new_spec, if_neg h0]

/-! ## The word splitter, every store checked -/

/-- C1, on the code: on a line without a word the constructor ends with the
count element "0" alone, which reads as the number 0 of words, and no
element follows it; on every line with a word, and so on the line "a", the
store of the first word (line 39) is at index 1 of the array of one slot
(line 33) and the run has no defined value. -/
theorem splice_count_element :
    (∀ s : List Char, countRuns (cstr s 0) = 0 →
      ∃ x, Checked.splice_new (some s) = Run.ok x
        ∧ x.word_list = ["0".toList]
        ∧ x.word_list.head?.bind decimalValue = some (countRuns (cstr s 0))
        ∧ x.word_list.tail.length = countRuns (cstr s 0))
    ∧ (∀ s : List Char, countRuns (cstr s 0) ≠ 0 →
        Checked.splice_new (some s) = Run.undefined (Fault.store_outside 1 1))
    ∧ Checked.splice_new (some "a".toList) = Run.undefined (Fault.store_outside 1 1) := by
  refine ⟨?_, checked_splice_new_word, by decide⟩
  intro s h0
  refine ⟨_, checked_splice_new_blank s h0, rfl, ?_, ?_⟩
  · rw [h0]
    show decimalValue "0".toList = some 0
    decide
  · rw [h0]; rfl

/-- C2, on the code: on both lines of the claim, "hello world" and "  a  b ",
the first call of `strtok` cuts the first word ("hello", "a") and the store
of its copy is at index 1 of the array of one slot, so the run has no
defined value; the same holds on every line with a word, and a line without
a word has no word element. -/
theorem splice_words :
    Checked.splice_new (some "hello world".toList)
        = Run.undefined (Fault.store_outside 1 1)
    ∧ Checked.splice_new (some "  a  b ".toList)
        = Run.undefined (Fault.store_outside 1 1)
    ∧ ((strtok (some 0) { mem := "hello world".toList, olds := 0 }).1 = some 0
        ∧ cstr (strtok (some 0) { mem := "hello world".toList, olds := 0 }).2.mem 0
            = "hello".toList)
    ∧ ((strtok (some 0) { mem := "  a  b ".toList, olds := 0 }).1 = some 2
        ∧ cstr (strtok (some 0) { mem := "  a  b ".toList, olds := 0 }).2.mem 2
            = "a".toList)
    ∧ (∀ s : List Char, countRuns (cstr s 0) ≠ 0 →
        Checked.splice_new (some s) = Run.undefined (Fault.store_outside 1 1))
    ∧ (∀ s : List Char, countRuns (cstr s 0) = 0 →
        ∃ x, Checked.splice_new (some s) = Run.ok x
          ∧ x.word_list.tail = maximalRuns (cstr s 0)) := by
  refine ⟨by decide, by decide, by decide, by decide, checked_splice_new_word, ?_⟩
  intro s h0
  exact ⟨_, checked_splice_new_blank s h0, (maximalRuns_eq_nil _ h0).symm⟩

/-- C3, on the code: on a line without a word the constructor ends and
`getsentence()` returns the text of the line; on the line "hello world", as
on every line with a word, the constructor has no defined value, so there is
no value to call `getsentence()` on. -/
theorem getsentence_after_construction :
    (∀ s : List Char, countRuns (cstr s 0) = 0 →
      ∃ x, Checked.splice_new (some s) = Run.ok x ∧ x.getsentence = cstr s 0)
    ∧ (∀ s : List Char, countRuns (cstr s 0) ≠ 0 →
        Checked.splice_new (some s) = Run.undefined (Fault.store_outside 1 1))
    ∧ Checked.splice_new (some "hello world".toList)
        = Run.undefined (Fault.store_outside 1 1) := by
  refine ⟨?_, checked_splice_new_word, by decide⟩
  intro s h0
  exact ⟨_, checked_splice_new_blank s h0, rfl⟩

/-- C18, on the code: on a line without a word the constructor ends, and the
word elements, of which there are none, concatenate to the line without its
spaces, which is empty; on the line "a b", as on every line with a word, the
constructor has no defined value. -/
theorem words_concat :
    (∀ s : List Char, countRuns (cstr s 0) = 0 →
      ∃ x, Checked.splice_new (some s) = Run.ok x
        ∧ x.word_list.tail.flatten = (cstr s 0).filter (fun c => c != SP))
    ∧ (∀ s : List Char, countRuns (cstr s 0) ≠ 0 →
        Checked.splice_new (some s) = Run.undefined (Fault.store_outside 1 1))
    ∧ Checked.splice_new (some "a b".toList)
        = Run.undefined (Fault.store_outside 1 1) := by
  refine ⟨?_, checked_splice_new_word, by decide⟩
  intro s h0
  refine ⟨_, checked_splice_new_blank s h0, ?_⟩
  have := flatten_maximalRuns (cstr s 0)
  rw [maximalRuns_eq_nil _ h0] at this
  simpa using this

/-- C19, on the code: on a line without a word both constructions end with
the same array, the count element "0" alone; on the line "b a", as on every
line with a word, the first construction has no defined value. -/
theorem splice_idempotent :
    (∀ s : List Char, countRuns (cstr s 0) = 0 →
      ∃ x y, Checked.splice_new (some s) = Run.ok x
        ∧ Checked.splice_new (some (joinWords x.word_list.tail ++ [NUL])) = Run.ok y
        ∧ y.word_list = x.word_list)
    ∧ (∀ s : List Char, countRuns (cstr s 0) ≠ 0 →
        Checked.splice_new (some s) = Run.undefined (Fault.store_outside 1 1))
    ∧ Checked.splice_new (some "b a".toList)
        = Run.undefined (Fault.store_outside 1 1) := by
  refine ⟨?_, checked_splice_new_word, by decide⟩
  intro s h0
  refine ⟨_, _, checked_splice_new_blank s h0,
    checked_splice_new_blank (joinWords [] ++ [NUL]) (by decide), rfl⟩

/-- C9, on the code: on the buffer that `fget_string` returns for "a b"
followed by the line terminator, and on the line of a tab followed by "a",
the store of the first word is at index 1 of the array of one slot, so the
run has no defined value and no word element to speak of; the word that
`strtok` cuts from the second line begins with the tab, the space being its
only delimiter; a line without a word has no word element. -/
theorem words_elements_undefined :
    Checked.fget_string (some { data := "a b".toList ++ [NL], eof := false })
        = Run.ok (some { mem := "a b".toList ++ [NL, NUL], size := 128, grows := 0,
                         fp := { data := [], eof := false } })
    ∧ Checked.splice_new (some ("a b".toList ++ [NL, NUL]))
        = Run.undefined (Fault.store_outside 1 1)
    ∧ Checked.splice_new (some (TAB :: "a".toList))
        = Run.undefined (Fault.store_outside 1 1)
    ∧ ((strtok (some 0) { mem := TAB :: "a".toList, olds := 0 }).1 = some 0
        ∧ trimmed (cstr (strtok (some 0) { mem := TAB :: "a".toList, olds := 0 }).2.mem 0)
            = false)
    ∧ (∀ s : List Char, countRuns (cstr s 0) = 0 →
        ∃ x, Checked.splice_new (some s) = Run.ok x ∧ x.word_list.tail = []) := by
  refine ⟨by decide, by decide, by decide, by decide, ?_⟩
  intro s h0
  exact ⟨_, checked_splice_new_blank s h0, rfl⟩

/-- C10, on the code: for the stream "hi" followed by the line terminator, and
for every stream that holds a line without terminator and null byte followed
by the line terminator, `main` has no defined output: the buffer ends with
the terminator, which is a word character, so the store of the first word
is at index 1 of the array of one slot, unless `fget_string` itself has met
a fault before. -/
theorem main_output_undefined :
    Checked.main (some { data := "hi".toList ++ [NL], eof := false })
        = Run.undefined (Fault.store_outside 1 1)
    ∧ (∀ L rest : List Char, (∀ c ∈ L, c ≠ NL) → (∀ c ∈ L, c ≠ NUL) →
        ∃ f, Checked.main (some { data := L ++ NL :: rest, eof := false })
          = Run.undefined f) := by
  refine ⟨by decide, ?_⟩
  intro L rest hNL hNUL
  by_cases hlen : L.length < 1073741824
  · by_cases hcap : ∃ k, L.length + 1 = 128 * 2 ^ k
    · obtain ⟨k, hk⟩ := hcap
      refine ⟨Fault.store_outside (L.length + 1) (L.length + 1), ?_⟩
      simp only [Checked.main, checked_fget_string_boundary L hNL rest k hk hlen]
    · have hdef := checked_fget_string_defined L hNL (NL :: rest) (Or.inr ⟨rest, rfl⟩) hlen
        (fun _ k hk => hcap ⟨k, hk⟩)
      obtain ⟨b, hb, hmem, hc⟩ := fget_string_terminated L rest hNL hNUL
      have hword : countRuns (cstr b.mem 0) ≠ 0 := by
        rw [hc]
        exact countRuns_ne_zero _ NL (by simp) (by decide)
      refine ⟨Fault.store_outside 1 1, ?_⟩
      simp only [Checked.main, hdef, hb, Option.map_some',
        checked_splice_new_word b.mem hword]
  · refine ⟨Fault.int_overflow, ?_⟩
    simp only [Checked.main,
      checked_fget_string_overflow L hNL (NL :: rest) (Nat.le_of_not_lt hlen)]

/-- C8, as stated, fails on the stream that holds the line terminator alone:
the returned buffer holds the terminator before the null marker, the
construction of `splice` from it has no defined value, and so no value with
the sentence "" and the word list "0". -/
theorem terminator_only_not_empty_line :
    Checked.fget_string (some { data := [NL], eof := false })
        = Run.ok (some { mem := [NL, NUL], size := 128, grows := 0,
                         fp := { data := [], eof := false } })
    ∧ Checked.splice_new (some [NL, NUL]) = Run.undefined (Fault.store_outside 1 1)
    ∧ ¬ (∃ b x, Checked.fget_string (some { data := [NL], eof := false }) = Run.ok (some b)
          ∧ Checked.splice_new (some b.mem) = Run.ok x
          ∧ x.getsentence = [] ∧ x.word_list = ["0".toList]) := by
  refine ⟨by decide, by decide, ?_⟩
  rintro ⟨b, x, hb, hx, -, -⟩
  have h1 : Checked.fget_string (some { data := [NL], eof := false })
      = Run.ok (some { mem := [NL, NUL], size := 128, grows := 0,
                       fp := { data := [], eof := false } }) := by decide
  rw [h1] at hb
  simp only [Run.ok.injEq, Option.some.injEq] at hb
  rw [← hb] at hx
  have h2 : Checked.splice_new (some [NL, NUL])
      = Run.undefined (Fault.store_outside 1 1) := by decide
  rw [h2] at hx
  simp at hx

/-- C8, amended: reading a stream whose very first byte is the line terminator
returns a buffer whose content is the terminator alone: the line handed to
`splice` is not the empty line, it has one maximal run of non-space
characters. -/
theorem terminator_only_line (rest : List Char) :
    ∃ b, Checked.fget_string (some { data := NL :: rest, eof := false }) = Run.ok (some b)
      ∧ b.mem = [NL, NUL]
      ∧ cstr b.mem 0 = [NL]
      ∧ countRuns (cstr b.mem 0) = 1 := by
  have hdef := checked_fget_string_defined [] (by simp) (NL :: rest) (Or.inr ⟨rest, rfl⟩)
    (by simp) (fun _ => not_capacity_of_not_dvd 1 (by decide))
  obtain ⟨b, hb, hmem, -⟩ := fget_string_terminated [] rest (by simp) (by simp)
  have hmem' : b.mem = [NL, NUL] := by simpa using hmem
  refine ⟨b, ?_, hmem', ?_, ?_⟩
  · simp only [List.nil_append] at hdef hb
    rw [hdef, hb]
  · rw [hmem']; decide
  · rw [hmem']; decide

/-! ## The line reader, every store checked -/

theorem checked_overflow_letters (tail : List Char) :
    Checked.fget_string
        (some { data := List.replicate 1073741824 (Char.ofNat 97) ++ tail, eof := false })
      = Run.undefined Fault.int_overflow :=
  checked_fget_string_overflow (List.replicate 1073741824 (Char.ofNat 97))
    (fun c hc => by rw [List.eq_of_mem_replicate hc]; decide) tail
    (by rw [List.length_replicate])

theorem checked_boundary_letters (k : Nat) (n : Nat) (hk : n + 1 = 128 * 2 ^ k)
    (hlen : n < 1073741824) (rest : List Char) :
    Checked.fget_string
        (some { data := List.replicate n (Char.ofNat 97) ++ NL :: rest, eof := false })
      = Run.undefined (Fault.store_outside (n + 1) (n + 1)) := by
  have := checked_fget_string_boundary (List.replicate n (Char.ofNat 97))
    (fun c hc => by rw [List.eq_of_mem_replicate hc]; decide) rest k
    (by rw [List.length_replicate]; exact hk) (by rw [List.length_replicate]; exact hlen)
  rw [List.length_replicate] at this
  exact this

/-- C4, as stated, fails: for "ab" followed by the line terminator the content
of the returned buffer is "ab" with the terminator, not "ab"; for 127 bytes
followed by the terminator the null marker is stored outside the block; for
`2^30` bytes followed by the terminator the capacity leaves `int`; the last
two runs return no buffer. -/
theorem fget_string_content_not_line :
    (Checked.fget_string (some { data := "ab".toList ++ [NL], eof := false })
        = Run.ok (some { mem := "ab".toList ++ [NL, NUL], size := 128, grows := 0,
                         fp := { data := [], eof := false } })
      ∧ cstr ("ab".toList ++ [NL, NUL]) 0 ≠ "ab".toList)
    ∧ Checked.fget_string
          (some { data := List.replicate 127 (Char.ofNat 97) ++ [NL], eof := false })
        = Run.undefined (Fault.store_outside 128 128)
    ∧ Checked.fget_string
          (some { data := List.replicate 1073741824 (Char.ofNat 97) ++ [NL], eof := false })
        = Run.undefined Fault.int_overflow :=
  ⟨⟨by decide, by decide⟩, checked_boundary_letters 0 127 (by norm_num) (by norm_num) [],
    checked_overflow_letters [NL]⟩

/-- C4, amended: for every byte sequence `L` without line terminator and
without null byte, shorter than `2^30` bytes and whose length plus one is
not a capacity `128 * 2^k`, `fget_string` on a stream that holds `L`
followed by a line terminator returns a buffer whose content is `L` followed
by the terminator. -/
theorem fget_string_line (L rest : List Char) (hNL : ∀ c ∈ L, c ≠ NL)
    (hNUL : ∀ c ∈ L, c ≠ NUL) (hlen : L.length < 2 ^ 30)
    (hcap : ∀ k, L.length + 1 ≠ 128 * 2 ^ k) :
    ∃ b, Checked.fget_string (some { data := L ++ NL :: rest, eof := false })
        = Run.ok (some b)
      ∧ b.mem = L ++ [NL, NUL]
      ∧ cstr b.mem 0 = L ++ [NL] := by
  have hdef := checked_fget_string_defined L hNL (NL :: rest) (Or.inr ⟨rest, rfl⟩)
    (by norm_num at hlen; exact hlen) (fun _ => hcap)
  obtain ⟨b, hb, hmem, hc⟩ := fget_string_terminated L rest hNL hNUL
  exact ⟨b, by rw [hdef, hb], hmem, hc⟩

theorem fget_string_line_witness :
    ∃ b, Checked.fget_string (some { data := "ab".toList ++ NL :: [], eof := false })
        = Run.ok (some b)
      ∧ b.mem = "ab".toList ++ [NL, NUL]
      ∧ cstr b.mem 0 = "ab".toList ++ [NL] :=
  fget_string_line "ab".toList [] (by decide) (by decide) (by decide)
    (not_capacity_of_not_dvd 3 (by decide))

/-- C5, as stated, fails on the stream of `2^30` bytes "a" that then ends:
when the cursor reaches the capacity `2^30` the sum `size += size` leaves
`int`, and no buffer is returned. -/
theorem fget_string_unterminated_overflow :
    Checked.fget_string
        (some { data := List.replicate 1073741824 (Char.ofNat 97), eof := false })
      = Run.undefined Fault.int_overflow := by
  have := checked_overflow_letters []
  rw [List.append_nil] at this
  exact this

/-- C5, amended: for every byte sequence `L` shorter than `2^30` bytes without
line terminator and without null byte, in particular for every non-empty
one, `fget_string` on a stream that holds exactly `L` and then ends returns
a buffer, not the null pointer, and the buffer holds `L` followed by the
null marker. -/
theorem fget_string_unterminated (L : List Char) (hNL : ∀ c ∈ L, c ≠ NL)
    (hNUL : ∀ c ∈ L, c ≠ NUL) (hlen : L.length < 2 ^ 30) :
    ∃ b, Checked.fget_string (some { data := L, eof := false }) = Run.ok (some b)
      ∧ b.mem = L ++ [NUL]
      ∧ cstr b.mem 0 = L := by
  have hdef := checked_fget_string_defined L hNL [] (Or.inl rfl)
    (by norm_num at hlen; exact hlen) (fun h => absurd rfl h)
  obtain ⟨b, hb, hmem, -, -, -⟩ := fget_string_spec
    { data := L, eof := false } rfl L [] (by simp) hNL (Or.inl rfl)
  have hmem' : b.mem = L ++ [NUL] := by simpa using hmem
  simp only [List.append_nil] at hdef
  refine ⟨b, by rw [hdef, hb], hmem', ?_⟩
  rw [hmem']
  exact cstr_line L hNUL []

theorem fget_string_unterminated_witness :
    ∃ b, Checked.fget_string (some { data := "ab".toList, eof := false }) = Run.ok (some b)
      ∧ b.mem = "ab".toList ++ [NUL]
      ∧ cstr b.mem 0 = "ab".toList :=
  fget_string_unterminated "ab".toList (by decide) (by decide) (by decide)

/-- C7, as stated, fails: for the line of 255 bytes "a" followed by the line
terminator, which is longer than the initial capacity, the block has grown
to 256 bytes and the null marker is stored at offset 256, outside it; for
the line of `2^30` bytes "a" followed by the terminator the capacity leaves
`int`; neither run returns a content. -/
theorem fget_string_long_line_faults :
    Checked.fget_string
          (some { data := List.replicate 255 (Char.ofNat 97) ++ [NL], eof := false })
        = Run.undefined (Fault.store_outside 256 256)
    ∧ Checked.fget_string
          (some { data := List.replicate 1073741824 (Char.ofNat 97) ++ [NL], eof := false })
        = Run.undefined Fault.int_overflow :=
  ⟨checked_boundary_letters 1 255 (by norm_num) (by norm_num) [],
    checked_overflow_letters [NL]⟩

/-- C7, amended: at a grow event the write cursor keeps its offset `n`, the
capacity is doubled and the first `n` bytes of the new block are those of
the old one; and for every line of at least 128 bytes (the initial capacity)
and less than `2^30` bytes, without line terminator and null byte, that is
ended by the end of the stream, or by a line terminator when its length plus
one is not a capacity `128 * 2^k`, the block grows at least once and the
returned content is the line read, byte for byte. -/
theorem fget_string_grow_preserves (L term : List Char) (hNL : ∀ c ∈ L, c ≠ NL)
    (hNUL : ∀ c ∈ L, c ≠ NUL) (hterm : term = [] ∨ ∃ rest, term = NL :: rest)
    (hlen : 128 ≤ L.length) (hmax : L.length < 2 ^ 30)
    (hcap : term ≠ [] → ∀ k, L.length + 1 ≠ 128 * 2 ^ k) :
    (∀ st : ReadState, st.grow.p = st.p ∧ st.grow.size = 2 * st.size
      ∧ st.grow.grows = st.grows + 1
      ∧ ∀ i, i < st.p → st.grow.pp[i]? = st.pp[i]?)
    ∧ ∃ b, Checked.fget_string (some { data := L ++ term, eof := false }) = Run.ok (some b)
      ∧ 1 ≤ b.grows ∧ 256 ≤ b.size
      ∧ cstr b.mem 0 = L ++ term.take 1 := by
  constructor
  · intro st
    refine ⟨rfl, by simp [ReadState.grow, Nat.two_mul], rfl, ?_⟩
    intro i hi
    simp [ReadState.grow, List.getElem?_take, hi]
  · have hdef := checked_fget_string_defined L hNL term hterm
      (by norm_num at hmax; exact hmax) hcap
    obtain ⟨b, hb, hmem, hsize, hgrow, -⟩ := fget_string_spec
      { data := L ++ term, eof := false } rfl L term rfl hNL hterm
    have hg : 1 ≤ b.grows := hgrow hlen
    refine ⟨b, by rw [hdef, hb], hg, ?_, ?_⟩
    · rw [hsize]
      have : 2 ^ 1 ≤ 2 ^ b.grows := Nat.pow_le_pow_right (by norm_num) hg
      omega
    · have := cstr_line (L ++ term.take 1) (by
        intro c hc
        rcases List.mem_append.1 hc with hc | hc
        · exact hNUL c hc
        · rcases hterm with rfl | ⟨rest, rfl⟩
          · simp at hc
          · simp only [List.take_succ_cons, List.take_zero, List.mem_singleton] at hc
            subst hc; exact NL_ne_NUL) []
      rw [hmem]
      simpa using this

theorem fget_string_grow_preserves_witness :
    ∃ b, Checked.fget_string
          (some { data := List.replicate 300 (Char.ofNat 97) ++ [NL], eof := false })
        = Run.ok (some b)
      ∧ 1 ≤ b.grows ∧ 256 ≤ b.size
      ∧ cstr b.mem 0 = List.replicate 300 (Char.ofNat 97) ++ [NL] :=
  (fget_string_grow_preserves (List.replicate 300 (Char.ofNat 97)) [NL]
    (fun c hc => by rw [List.eq_of_mem_replicate hc]; decide)
    (fun c hc => by rw [List.eq_of_mem_replicate hc]; decide)
    (Or.inr ⟨[], rfl⟩) (by rw [List.length_replicate]; decide)
    (by rw [List.length_replicate]; decide)
    (fun _ => by
      rw [List.length_replicate]
      exact not_capacity_of_not_dvd 301 (by decide))).2

/-- C12, as stated, fails on the stream "ab" followed by the line terminator:
the returned buffer has capacity 128 and content length 3. -/
theorem fget_string_not_exact_size :
    Checked.fget_string (some { data := "ab".toList ++ [NL], eof := false })
        = Run.ok (some { mem := "ab".toList ++ [NL, NUL], size := 128, grows := 0,
                         fp := { data := [], eof := false } })
    ∧ (128 : Nat) ≠ (cstr ("ab".toList ++ [NL, NUL]) 0).length + 1 := by
  decide

/-- C12, amended: for every input on which `fget_string` returns a buffer, the
capacity of the buffer is 128 doubled once for every grow, and it is at
least the content length plus one byte for the null marker. -/
theorem fget_string_capacity_bound (fp : Option FILE) (b : LineBuf)
    (h : Checked.fget_string fp = Run.ok (some b)) :
    b.size = 128 * 2 ^ b.grows ∧ (cstr b.mem 0).length + 1 ≤ b.size := by
  obtain ⟨hb, hlen⟩ := checked_fget_string_ok fp b h
  cases fp with
  | none => simp [fget_string] at hb
  | some f =>
    obtain ⟨data, eof⟩ := f
    cases eof with
    | true => simp [fget_string, feof] at hb
    | false =>
      obtain ⟨b', hb', hsize, -, -, -⟩ := fget_string_capacity data
      rw [hb] at hb'
      cases hb'
      refine ⟨hsize, ?_⟩
      have hl := fget_loop_len data false { pp := [], p := 0, size := 128, grows := 0 } rfl
      have hmem : b.mem = (fget_loop data false
          { pp := [], p := 0, size := 128, grows := 0 }).1.pp ++ [NUL] := by
        simp only [fget_string, feof, Bool.false_eq_true, if_false, Option.some.injEq] at hb
        rw [← hb, ← hl, poke_end]
      have hc := cstr_length_le (fget_loop data false
          { pp := [], p := 0, size := 128, grows := 0 }).1.pp
      rw [← hmem] at hc
      have : b.mem.length = (fget_loop data false
          { pp := [], p := 0, size := 128, grows := 0 }).1.pp.length + 1 := by
        rw [hmem]; simp
      omega

theorem fget_string_capacity_bound_witness :
    (128 : Nat) = 128 * 2 ^ 0
    ∧ (cstr ("ab".toList ++ [NL, NUL]) 0).length + 1 ≤ 128 :=
  fget_string_capacity_bound
    (some { data := "ab".toList ++ [NL], eof := false })
    { mem := "ab".toList ++ [NL, NUL], size := 128, grows := 0,
      fp := { data := [], eof := false } } (by decide)

/-- C17, as stated, fails: for 127 bytes "a", the line terminator and "x" the
null marker is stored outside the block, and for `2^30` bytes "a" followed
by "x" the capacity leaves `int`; neither run returns a buffer or leaves a
stream behind. -/
theorem fget_string_no_buffer :
    Checked.fget_string
          (some { data := List.replicate 127 (Char.ofNat 97) ++ NL :: "x".toList,
                  eof := false })
        = Run.undefined (Fault.store_outside 128 128)
    ∧ Checked.fget_string
          (some { data := List.replicate 1073741824 (Char.ofNat 97) ++ "x".toList,
                  eof := false })
        = Run.undefined Fault.int_overflow :=
  ⟨checked_boundary_letters 0 127 (by norm_num) (by norm_num) "x".toList,
    checked_overflow_letters "x".toList⟩

/-- C17, amended: on every open stream whose bytes before the first line
terminator, `L`, are less than `2^30` and, when a terminator follows them,
are not one less than a capacity `128 * 2^k`, `fget_string` reads up to and
including the first line terminator and no further: the buffer holds `L`,
that terminator if there is one, and the null marker, nothing else; its
content is the part of these bytes before their first null byte, all of them
when `L` has none; and the bytes behind the terminator are left unread in
the stream. -/
theorem fget_string_reads_one_line (L term : List Char) (hNL : ∀ c ∈ L, c ≠ NL)
    (hterm : term = [] ∨ ∃ rest, term = NL :: rest) (hmax : L.length < 2 ^ 30)
    (hcap : term ≠ [] → ∀ k, L.length + 1 ≠ 128 * 2 ^ k) :
    ∃ b, Checked.fget_string (some { data := L ++ term, eof := false }) = Run.ok (some b)
      ∧ b.mem = L ++ term.take 1 ++ [NUL]
      ∧ cstr b.mem 0 = (L ++ term.take 1).takeWhile (fun c => c != NUL)
      ∧ ((∀ c ∈ L, c ≠ NUL) → cstr b.mem 0 = L ++ term.take 1)
      ∧ b.fp.data = term.drop 1 := by
  have hdef := checked_fget_string_defined L hNL term hterm
    (by norm_num at hmax; exact hmax) hcap
  obtain ⟨b, hb, hmem, -, -, hfp⟩ := fget_string_spec
    { data := L ++ term, eof := false } rfl L term rfl hNL hterm
  refine ⟨b, by rw [hdef, hb], hmem, ?_, ?_, ?_⟩
  · rw [hmem]
    exact cstr_append_NUL _
  · intro hL
    rw [hmem]
    apply cstr_line
    intro c hc
    rcases List.mem_append.1 hc with hc | hc
    · exact hL c hc
    · rcases hterm with rfl | ⟨rest, rfl⟩
      · simp at hc
      · simp only [List.take_succ_cons, List.take_zero, List.mem_singleton] at hc
        subst hc; exact NL_ne_NUL
  · rw [hfp]
    split
    · rename_i h; simp [h]
    · rfl

theorem fget_string_reads_one_line_witness :
    ∃ b, Checked.fget_string (some { data := "ab".toList ++ NL :: "cd".toList, eof := false })
        = Run.ok (some b)
      ∧ b.mem = "ab".toList ++ (NL :: "cd".toList).take 1 ++ [NUL]
      ∧ cstr b.mem 0
          = ("ab".toList ++ (NL :: "cd".toList).take 1).takeWhile (fun c => c != NUL)
      ∧ ((∀ c ∈ "ab".toList, c ≠ NUL) →
          cstr b.mem 0 = "ab".toList ++ (NL :: "cd".toList).take 1)
      ∧ b.fp.data = (NL :: "cd".toList).drop 1 :=
  fget_string_reads_one_line "ab".toList (NL :: "cd".toList) (by decide)
    (Or.inr ⟨"cd".toList, rfl⟩) (by decide)
    (fun _ => not_capacity_of_not_dvd 3 (by decide))

/-! ## The checked program on an absent and on an empty input -/

theorem checked_fget_string_empty :
    Checked.fget_string none = Run.ok none
    ∧ Checked.fget_string (some { data := [], eof := false })
        = Run.ok (some { mem := [NUL], size := 128, grows := 0,
                         fp := { data := [], eof := true } }) := by
  decide

theorem checked_main_absent :
    Checked.main none = Run.undefined Fault.null_pointer
    ∧ Checked.main (some { data := [], eof := false })
        = Run.ok ("Input was ".toList ++ [NL] ++ "Number of words is 0".toList) := by
  decide

end ClassBasics
